import Mathlib

/-!
# MutexMap: a Go map guarded by one `sync.RWMutex`

Shallow embedding of `src/mutexmap.go`.

* The backing table `store map[K]V` is a finite map with unique keys,
  `AList (fun _ : K => V)`; Go's `m[k] = v` is `AList.insert`, `delete(m, k)` is
  `AList.erase`, and the comma-ok read `v, ok := m[k]` is `index`.
* Every method body runs inside one critical section of the embedded lock
  (`Lock`/`Unlock` or `RLock`/`RUnlock`), so a method is one atomic step on the
  table: it takes the map state and returns its results with the new state.
* The states are those of a map obtained from `NewMutexMap` (the table is a
  made, non-nil Go map).
* The zero value of `V` is `default`.
* `Range` calls a caller-supplied closure which may call back into the same map
  and may keep state of its own; the closure is a `Visitor`, a function on the
  pair of its captured state and the map. A closure that panics or never
  returns is outside the model.
* `Range` returns, besides the final state, the log of the invocations it made
  of the closure: the statements about which keys are visited are statements
  about that log.
* The lock itself is tracked in a second layer: the same method bodies with
  their lock calls, over a state that carries the `sync.RWMutex` and a trace of
  the lock calls and table accesses. With the lock free these methods return
  what the atomic ones return (`methods_refine`, `RangeL_refines`).
* Concurrent callers are threads that run the method bodies step by step, the
  steps interleaving under any schedule (`Config.exec`); a thread alone runs a
  method as the second layer does (`thread_alone`).
-/

namespace MutexMapSpec

universe u v w

/-- The struct `MutexMap[K, V]`: the table `store` (the lock carries no data). -/
structure MutexMap (K : Type u) (V : Type v) where
  store : AList (fun _ : K => V)

section Methods

variable {K : Type u} {V : Type v} [DecidableEq K] [Inhabited V]

/-- Go's comma-ok map read `val, ok := t[key]`: the stored value and `true`, or
the zero value and `false`. -/
def index (t : AList (fun _ : K => V)) (key : K) : V × Bool :=
  match t.lookup key with
  | some val => (val, true)
  | none => (default, false)

/-- The constructor `NewMutexMap`: `store: make(map[K]V)`, an empty table. -/
def NewMutexMap : MutexMap K V :=
  { store := ∅ }

/-- The method `Store`: `m.store[key] = val`. -/
def Store (m : MutexMap K V) (key : K) (val : V) : MutexMap K V :=
  { m with store := m.store.insert key val }

/-- The method `Load`: `val, ok := m.store[key]; return val, ok`. The second
component is the map state after the call. -/
def Load (m : MutexMap K V) (key : K) : (V × Bool) × MutexMap K V :=
  let (val, ok) := index m.store key
  ((val, ok), m)

/-- The method `Delete`: `delete(m.store, key)`. -/
def Delete (m : MutexMap K V) (key : K) : MutexMap K V :=
  { m with store := m.store.erase key }

/-- The method `LoadAndDelete`: read the entry, delete it when it was loaded,
return what was read. -/
def LoadAndDelete (m : MutexMap K V) (key : K) : (V × Bool) × MutexMap K V :=
  let (val, loaded) := index m.store key
  let m1 := if loaded then { m with store := m.store.erase key } else m
  ((val, loaded), m1)

/-- The method `LoadOrStore`: when the key is present return the stored value
and `true`; otherwise store the argument and return it with `false`. -/
def LoadOrStore (m : MutexMap K V) (key : K) (val : V) : (V × Bool) × MutexMap K V :=
  let (val0, ok) := index m.store key
  if ok then ((val0, ok), m)
  else ((val, false), { m with store := m.store.insert key val })

/-- The closure `f func(key K, value V) bool` given to `Range`: it returns
whether to go on, and may change its captured state `σ` and the map. -/
abbrev Visitor (K : Type u) (V : Type v) (σ : Type w) :=
  K → V → σ × MutexMap K V → Bool × (σ × MutexMap K V)

/-- One invocation of the visitor made by `Range`: the key and value passed and
the boolean it returned. -/
abbrev Call (K : Type u) (V : Type v) := K × V × Bool

/-- The loop `for _, k := range keys` of `Range`: re-`Load` the key; on a miss
`continue`; otherwise call `f`, and `break` when it returns `false`. Returns
the log of the invocations of `f`, in order, and the final state. -/
def rangeLoop {σ : Type w} (f : Visitor K V σ) :
    List K → σ × MutexMap K V → List (Call K V) × (σ × MutexMap K V)
  | [], st => ([], st)
  | k :: ks, st =>
    let ((v, ok), m1) := Load st.2 k
    if !ok then rangeLoop f ks (st.1, m1)
    else
      let (cont, st1) := f k v (st.1, m1)
      if !cont then ([(k, v, cont)], st1)
      else
        let r := rangeLoop f ks st1
        ((k, v, cont) :: r.1, r.2)

/-- An iteration order of `for k := range m.store`, which Go leaves
unspecified: any rearrangement of the keys of the table. -/
structure IterOrder (K : Type u) where
  run : List K → List K
  perm : ∀ l, (run l).Perm l

/-- The order that yields the keys as the table lists them. -/
def IterOrder.asListed : IterOrder K :=
  { run := fun l => l, perm := fun l => List.Perm.refl l }

/-- The order that yields the keys back to front. -/
def IterOrder.reversed : IterOrder K :=
  { run := List.reverse, perm := fun l => List.reverse_perm l }

/-- The key snapshot of `Range`: the keys of the table, appended to `keys`
in the order the map iteration yields them. -/
def snapshot (order : IterOrder K) (m : MutexMap K V) : List K :=
  order.run m.store.keys

/-- The method `Range`: take the key snapshot, then run the loop over it. -/
def Range {σ : Type w} (order : IterOrder K) (f : Visitor K V σ)
    (st : σ × MutexMap K V) : List (Call K V) × (σ × MutexMap K V) :=
  let keys := snapshot order st.2
  rangeLoop f keys st

/-- A call of one of the single-key methods. -/
inductive Op (K : Type u) (V : Type v) where
  | store (key : K) (val : V)
  | load (key : K)
  | delete (key : K)
  | loadAndDelete (key : K)
  | loadOrStore (key : K) (val : V)
  deriving DecidableEq

/-- The map state after a call. -/
def Op.step (m : MutexMap K V) : Op K V → MutexMap K V
  | .store key val => Store m key val
  | .load key => (Load m key).2
  | .delete key => Delete m key
  | .loadAndDelete key => (LoadAndDelete m key).2
  | .loadOrStore key val => (LoadOrStore m key val).2

/-- The map state after a sequence of calls, first call first. -/
def runOps (m : MutexMap K V) (ops : List (Op K V)) : MutexMap K V :=
  ops.foldl Op.step m

/-- The calls that the first contract lets follow `Store(key, _)`: any `Load`,
any `LoadOrStore`, and `Store`, `Delete`, `LoadAndDelete` on another key. -/
def Op.leavesKey (key : K) : Op K V → Bool
  | .store k _ => decide (k ≠ key)
  | .load _ => true
  | .delete k => decide (k ≠ key)
  | .loadAndDelete k => decide (k ≠ key)
  | .loadOrStore _ _ => true

/-- The calls that never put `key` into the table: all but `Store` and
`LoadOrStore` with that very key. -/
def Op.neverStores (key : K) : Op K V → Bool
  | .store k _ => decide (k ≠ key)
  | .loadOrStore k _ => decide (k ≠ key)
  | _ => true

/-! ### Concrete maps and visitors -/

/-- The table `1 ↦ 10, 2 ↦ 20, 3 ↦ 30`, listed in that order. -/
def demoMap : MutexMap Nat Nat :=
  Store (Store (Store NewMutexMap 3 30) 2 20) 1 10

/-- A visitor that stops at once. -/
def stopAtOnce : Visitor Nat Nat Unit :=
  fun _ _ st => (false, st)

/-- A visitor that calls `m.Delete(key + 1)` and goes on. -/
def deleteNext : Visitor Nat Nat Unit :=
  fun key _ st => (true, (st.1, Delete st.2 (key + 1)))

/-- A visitor that calls `m.Store(key + 100, value)` and goes on. -/
def storeFresh : Visitor Nat Nat Unit :=
  fun key value st => (true, (st.1, Store st.2 (key + 100) value))

/-- A visitor that counts its invocations and stops at the second. -/
def stopAtSecond : Visitor Nat Nat Nat :=
  fun _ _ st => (decide (st.1 + 1 < 2), (st.1 + 1, st.2))

/-- A visitor that calls `m.Store(key + 1, 99)` and goes on. -/
def overwriteNext : Visitor Nat Nat Unit :=
  fun key _ st => (true, (st.1, Store st.2 (key + 1) 99))

/-- A visitor that adds the value to a running total, leaves the map alone and
goes on. -/
def sumValues : Visitor Nat Nat Nat :=
  fun _ value st => (true, (st.1 + value, st.2))

/-- The calls `Store(K_i, V_i)` for the pairs of `kvs`, taking effect in the
order of the list. -/
def storeAll (m : MutexMap K V) (kvs : List (K × V)) : MutexMap K V :=
  runOps m (kvs.map fun kv => Op.store kv.1 kv.2)

/-- The calls `LoadOrStore(key, V_m)` for the values of the list, taking effect
in the order of the list: what each caller observes, and the final state. -/
def loadOrStoreAll (m : MutexMap K V) (key : K) : List V → List (V × Bool) × MutexMap K V
  | [] => ([], m)
  | val :: vals =>
    let r := LoadOrStore m key val
    let rest := loadOrStoreAll r.2 key vals
    (r.1 :: rest.1, rest.2)

end Methods

/-! ## The methods with their lock calls

The same method bodies, statement by statement, over a state that carries the
embedded `sync.RWMutex`. A method now returns an `Option`: `none` when a lock
call in it does not return. Each lock call and each access to the table is
recorded, in order, in a trace of the run. -/

/-- Modelled from the spec: the state of the embedded `sync.RWMutex`, whose code is
Go's library and not part of this repository. "Shared (read) acquisition permits
concurrent readers but excludes all writers; exclusive (write) acquisition
excludes all other readers and writers": `writer` tells whether the lock is held
exclusively, `readers` counts the shared holders. -/
structure RWMutex where
  writer : Bool
  readers : Nat
  deriving DecidableEq

/-- The lock held by no one. -/
def RWMutex.free : RWMutex :=
  { writer := false, readers := 0 }

/-- Modelled from the spec: `Lock()` acquires the lock exclusively when no one holds
it; otherwise the call waits ("a blocked lock acquisition waits indefinitely
for the holder to release it"): `none`. -/
def RWMutex.Lock (mu : RWMutex) : Option RWMutex :=
  if mu.writer = false ∧ mu.readers = 0 then some { writer := true, readers := 0 } else none

/-- Modelled from the spec: `Unlock()` releases the exclusive hold; on a lock not
held exclusively it does not return normally: `none`. -/
def RWMutex.Unlock (mu : RWMutex) : Option RWMutex :=
  if mu.writer = true then some { mu with writer := false } else none

/-- Modelled from the spec: `RLock()` adds a shared holder unless the lock is held
exclusively, in which case the call waits: `none`. -/
def RWMutex.RLock (mu : RWMutex) : Option RWMutex :=
  if mu.writer = false then some { mu with readers := mu.readers + 1 } else none

/-- Modelled from the spec: `RUnlock()` removes a shared holder; with no shared
holder it does not return normally: `none`. -/
def RWMutex.RUnlock (mu : RWMutex) : Option RWMutex :=
  if 0 < mu.readers then some { mu with readers := mu.readers - 1 } else none

/-- The struct `MutexMap[K, V]` with both its fields: the embedded lock and the
table. -/
structure LockedMap (K : Type u) (V : Type v) where
  mu : RWMutex
  store : AList (fun _ : K => V)
  deriving DecidableEq

/-- What a run of a method does, one event per lock call, per access to the
table and per call of the visitor. -/
inductive Ev (K : Type u) (V : Type v) where
  | lock
  | unlock
  | rlock
  | runlock
  | read (key : K)
  | write (key : K) (val : V)
  | del (key : K)
  | iter
  | visit (key : K) (val : V) (mu : RWMutex)
  deriving DecidableEq

/-- A run in progress: the map and the trace of the events so far. -/
structure Run (K : Type u) (V : Type v) extends LockedMap K V where
  trace : List (Ev K V)
  deriving DecidableEq

/-- What the running method itself holds of the lock: how many exclusive and
how many shared acquisitions it has made and not yet released. -/
structure Held where
  excl : Nat
  shared : Nat
  deriving DecidableEq

section LockLevel

variable {K : Type u} {V : Type v} [DecidableEq K] [Inhabited V]

/-- The table of a locked map, as a state of the atomic methods. -/
def LockedMap.table (s : LockedMap K V) : MutexMap K V :=
  { store := s.store }

/-- The call `m.Lock()`. -/
def Run.Lock (r : Run K V) : Option (Run K V) :=
  match r.mu.Lock with
  | some mu => some { r with mu := mu, trace := r.trace ++ [Ev.lock] }
  | none => none

/-- The call `m.Unlock()`. -/
def Run.Unlock (r : Run K V) : Option (Run K V) :=
  match r.mu.Unlock with
  | some mu => some { r with mu := mu, trace := r.trace ++ [Ev.unlock] }
  | none => none

/-- The call `m.RLock()`. -/
def Run.RLock (r : Run K V) : Option (Run K V) :=
  match r.mu.RLock with
  | some mu => some { r with mu := mu, trace := r.trace ++ [Ev.rlock] }
  | none => none

/-- The call `m.RUnlock()`. -/
def Run.RUnlock (r : Run K V) : Option (Run K V) :=
  match r.mu.RUnlock with
  | some mu => some { r with mu := mu, trace := r.trace ++ [Ev.runlock] }
  | none => none

/-- The read `val, ok := m.store[key]`. -/
def Run.read (r : Run K V) (key : K) : (V × Bool) × Run K V :=
  (index r.store key, { r with trace := r.trace ++ [Ev.read key] })

/-- The assignment `m.store[key] = val`. -/
def Run.write (r : Run K V) (key : K) (val : V) : Run K V :=
  { r with store := r.store.insert key val, trace := r.trace ++ [Ev.write key val] }

/-- The statement `delete(m.store, key)`. -/
def Run.del (r : Run K V) (key : K) : Run K V :=
  { r with store := r.store.erase key, trace := r.trace ++ [Ev.del key] }

/-- The statements `len(m.store)` and `for k := range m.store` that fill `keys`. -/
def Run.iter (order : IterOrder K) (r : Run K V) : List K × Run K V :=
  (order.run r.store.keys, { r with trace := r.trace ++ [Ev.iter] })

/-- The method `Store` with its lock calls; the deferred `Unlock` runs at the
return. -/
def StoreL (r : Run K V) (key : K) (val : V) : Option (Run K V) := do
  let r ← r.Lock
  let r := r.write key val
  r.Unlock

/-- The method `Load` with its lock calls. -/
def LoadL (r : Run K V) (key : K) : Option ((V × Bool) × Run K V) := do
  let r ← r.RLock
  let ((val, ok), r) := r.read key
  let r ← r.RUnlock
  pure ((val, ok), r)

/-- The method `Delete` with its lock calls. -/
def DeleteL (r : Run K V) (key : K) : Option (Run K V) := do
  let r ← r.Lock
  let r := r.del key
  r.Unlock

/-- The method `LoadAndDelete` with its lock calls. -/
def LoadAndDeleteL (r : Run K V) (key : K) : Option ((V × Bool) × Run K V) := do
  let r ← r.Lock
  let ((val, loaded), r) := r.read key
  let r := if loaded then r.del key else r
  let r ← r.Unlock
  pure ((val, loaded), r)

/-- The method `LoadOrStore` with its lock calls; the deferred `Unlock` runs at
either return. -/
def LoadOrStoreL (r : Run K V) (key : K) (val : V) : Option ((V × Bool) × Run K V) := do
  let r ← r.Lock
  let ((val0, ok), r) := r.read key
  if ok then
    let r ← r.Unlock
    pure ((val0, ok), r)
  else
    let r := r.write key val
    let r ← r.Unlock
    pure ((val, false), r)

/-- The closure given to `Range`, run on the map with its lock: it may call
back into the map, and a lock call in it may not return (`none`). The trace
is the one of `Range` itself and is out of the closure's reach. -/
abbrev VisitorL (K : Type u) (V : Type v) (σ : Type w) :=
  K → V → σ × LockedMap K V → Option (Bool × (σ × LockedMap K V))

/-- The loop of `Range` with the lock calls of the `Load` it makes for each key.
The call of `f` is recorded with the state of the lock at the call. -/
def rangeLoopL {σ : Type w} (f : VisitorL K V σ) :
    List K → σ × Run K V → Option (σ × Run K V)
  | [], st => some st
  | k :: ks, st =>
    match LoadL st.2 k with
    | none => none
    | some ((v, ok), r) =>
      if !ok then rangeLoopL f ks (st.1, r)
      else
        let r := { r with trace := r.trace ++ [Ev.visit k v r.mu] }
        match f k v (st.1, r.toLockedMap) with
        | none => none
        | some (cont, st1) =>
          if !cont then some (st1.1, { st1.2 with trace := r.trace })
          else rangeLoopL f ks (st1.1, { st1.2 with trace := r.trace })

/-- The method `Range` with its lock calls: the key snapshot is taken between
`RLock` and `RUnlock`, then the loop runs. -/
def RangeL {σ : Type w} (order : IterOrder K) (f : VisitorL K V σ)
    (st : σ × Run K V) : Option (σ × Run K V) :=
  match st.2.RLock with
  | none => none
  | some r =>
    let (keys, r) := r.iter order
    match r.RUnlock with
    | none => none
    | some r => rangeLoopL f keys (st.1, r)

/-- What the running method holds after an event of its own. -/
def Held.after (h : Held) : Ev K V → Held
  | .lock => { h with excl := h.excl + 1 }
  | .unlock => { h with excl := h.excl - 1 }
  | .rlock => { h with shared := h.shared + 1 }
  | .runlock => { h with shared := h.shared - 1 }
  | _ => h

/-- The lock discipline for one event, given what the method holds: the table is
read only under a hold of either mode, written only under an exclusive hold,
and only a hold that was made is released. -/
def Ev.allowed (h : Held) : Ev K V → Bool
  | .read _ => decide (0 < h.excl ∨ 0 < h.shared)
  | .iter => decide (0 < h.excl ∨ 0 < h.shared)
  | .write _ _ => decide (0 < h.excl)
  | .del _ => decide (0 < h.excl)
  | .unlock => decide (0 < h.excl)
  | .runlock => decide (0 < h.shared)
  | _ => true

/-- The lock discipline for the trace of a method: every event is allowed under
what the method holds when it occurs, and at the return nothing is held. -/
def disciplined (h : Held) : List (Ev K V) → Bool
  | [] => decide (h = { excl := 0, shared := 0 })
  | e :: es => e.allowed h && disciplined (h.after e) es

/-- No call of the visitor is made while the method holds the lock. -/
def visitsUnheld (h : Held) : List (Ev K V) → Bool
  | [] => true
  | .visit key val mu :: es =>
    decide (h = { excl := 0, shared := 0 }) && visitsUnheld (h.after (.visit key val mu)) es
  | e :: es => visitsUnheld (h.after e) es

/-- A call of a single-key method with its lock calls; the value returned is
dropped. -/
def Op.runL (r : Run K V) : Op K V → Option (Run K V)
  | .store key val => StoreL r key val
  | .load key => (LoadL r key).map fun x => x.2
  | .delete key => DeleteL r key
  | .loadAndDelete key => (LoadAndDeleteL r key).map fun x => x.2
  | .loadOrStore key val => (LoadOrStoreL r key val).map fun x => x.2

/-- A call of a single-key method with its lock calls, on the map alone. -/
def Op.stepL (s : LockedMap K V) (op : Op K V) : Option (LockedMap K V) :=
  (Op.runL { s with trace := [] } op).map fun r => r.toLockedMap

/-- A sequence of calls of the single-key methods made one after the other. -/
def runOpsL (s : LockedMap K V) : List (Op K V) → Option (LockedMap K V)
  | [] => some s
  | op :: ops => (Op.stepL s op).bind fun s1 => runOpsL s1 ops

/-- A visitor that does nothing but call back into the map: `g` chooses, from
the key, the value and the captured state, what to return, the new captured
state and the calls of single-key methods to make. -/
def reentrant {σ : Type w} (g : K → V → σ → Bool × σ × List (Op K V)) : VisitorL K V σ :=
  fun key val st =>
    match runOpsL st.2 (g key val st.1).2.2 with
    | some s => some ((g key val st.1).1, ((g key val st.1).2.1, s))
    | none => none

/-- The run that starts on the table of `demoMap` with the lock free. -/
def demoRun : Run Nat Nat :=
  { mu := RWMutex.free, store := demoMap.store, trace := [] }

/-- A visitor that calls `m.Load(key)` and `m.Store(key + 100, value)` and goes on. -/
def loadAndStoreFresh : VisitorL Nat Nat Unit :=
  reentrant fun key value st => (true, st, [Op.load key, Op.store (key + 100) value])

/-- The visitor of the atomic model, run on the map with its lock: it acts on
the table and leaves the lock alone. -/
def liftVisitor {σ : Type w} (f : Visitor K V σ) : VisitorL K V σ :=
  fun key val st =>
    some ((f key val (st.1, st.2.table)).1,
      ((f key val (st.1, st.2.table)).2.1,
        { mu := st.2.mu, store := (f key val (st.1, st.2.table)).2.2.store }))

/-- The calls of the visitor recorded in a trace, in order. -/
def visitsOf : List (Ev K V) → List (K × V)
  | [] => []
  | .visit key val _ :: es => (key, val) :: visitsOf es
  | _ :: es => visitsOf es

end LockLevel

/-! ## Concurrent callers

Threads call the single-key methods on one map. A call proceeds by steps, one
per lock call and one per statement on the table; the steps of the threads
interleave in any order, and a thread whose lock call cannot return takes no
step. -/

/-- What a call returns: nothing for `Store` and `Delete`, the pair `(V, bool)`
for the other methods. -/
abbrev Res (V : Type v) := Option (V × Bool)

/-- A thread: the calls it still has to make, the head one in progress when
`pc` is not `0`; the position `pc` in the method body; the locals `val`
and `ok` of the body; and the calls that returned, with their results. -/
structure Thread (K : Type u) (V : Type v) where
  calls : List (Op K V)
  pc : Nat
  val : V
  ok : Bool
  done : List (Op K V × Res V)
  deriving DecidableEq

/-- The map, the threads, and the order in which the calls took effect so far:
thread, call and result. -/
structure Config (K : Type u) (V : Type v) where
  s : LockedMap K V
  threads : List (Thread K V)
  lin : List (Nat × Op K V × Res V)

section Interleaving

variable {K : Type u} {V : Type v} [DecidableEq K] [Inhabited V]

/-- A call of a single-key method as one atomic step: its result and the map
state after it. -/
def Op.call (m : MutexMap K V) : Op K V → Res V × MutexMap K V
  | .store key val => (none, Store m key val)
  | .load key => (some (Load m key).1, (Load m key).2)
  | .delete key => (none, Delete m key)
  | .loadAndDelete key => (some (LoadAndDelete m key).1, (LoadAndDelete m key).2)
  | .loadOrStore key val => (some (LoadOrStore m key val).1, (LoadOrStore m key val).2)

/-- A sequence of calls made one after the other, each as one atomic step: the
results, in order, and the final map state. -/
def seqRun (m : MutexMap K V) : List (Op K V) → List (Res V) × MutexMap K V
  | [] => ([], m)
  | op :: ops =>
    let r := Op.call m op
    let rest := seqRun r.2 ops
    (r.1 :: rest.1, rest.2)

/-- The return of the call in progress: it leaves the calls to make and is
recorded with its result. -/
def Thread.ret (t : Thread K V) (op : Op K V) (rest : List (Op K V)) (res : Res V) :
    Thread K V :=
  { calls := rest, pc := 0, val := t.val, ok := t.ok, done := t.done ++ [(op, res)] }

/-- One step of a thread on the map: the next lock call or statement of the
method body of its call in progress. `none` when the thread has no call left
or its lock call cannot return now. The third component tells whether the
call takes effect at this step, and with which result. -/
def Thread.step (t : Thread K V) (s : LockedMap K V) :
    Option (Thread K V × LockedMap K V × Option (Op K V × Res V)) :=
  match t.calls with
  | [] => none
  | .store key val :: rest =>
    match t.pc with
    | 0 => s.mu.Lock.map fun mu => ({ t with pc := 1 }, { s with mu := mu }, none)
    | 1 =>
      some ({ t with pc := 2 }, { s with store := s.store.insert key val },
        some (.store key val, none))
    | 2 => s.mu.Unlock.map fun mu => (t.ret (.store key val) rest none, { s with mu := mu }, none)
    | _ => none
  | .load key :: rest =>
    match t.pc with
    | 0 => s.mu.RLock.map fun mu => ({ t with pc := 1 }, { s with mu := mu }, none)
    | 1 =>
      some ({ t with pc := 2, val := (index s.store key).1, ok := (index s.store key).2 }, s,
        some (.load key, some (index s.store key)))
    | 2 =>
      s.mu.RUnlock.map fun mu =>
        (t.ret (.load key) rest (some (t.val, t.ok)), { s with mu := mu }, none)
    | _ => none
  | .delete key :: rest =>
    match t.pc with
    | 0 => s.mu.Lock.map fun mu => ({ t with pc := 1 }, { s with mu := mu }, none)
    | 1 =>
      some ({ t with pc := 2 }, { s with store := s.store.erase key }, some (.delete key, none))
    | 2 => s.mu.Unlock.map fun mu => (t.ret (.delete key) rest none, { s with mu := mu }, none)
    | _ => none
  | .loadAndDelete key :: rest =>
    match t.pc with
    | 0 => s.mu.Lock.map fun mu => ({ t with pc := 1 }, { s with mu := mu }, none)
    | 1 =>
      some ({ t with pc := 2, val := (index s.store key).1, ok := (index s.store key).2 }, s,
        none)
    | 2 =>
      some ({ t with pc := 3 },
        if t.ok then { s with store := s.store.erase key } else s,
        some (.loadAndDelete key, some (t.val, t.ok)))
    | 3 =>
      s.mu.Unlock.map fun mu =>
        (t.ret (.loadAndDelete key) rest (some (t.val, t.ok)), { s with mu := mu }, none)
    | _ => none
  | .loadOrStore key val :: rest =>
    match t.pc with
    | 0 => s.mu.Lock.map fun mu => ({ t with pc := 1 }, { s with mu := mu }, none)
    | 1 =>
      some ({ t with pc := 2, val := (index s.store key).1, ok := (index s.store key).2 }, s,
        none)
    | 2 =>
      if t.ok then
        some ({ t with pc := 3 }, s, some (.loadOrStore key val, some (t.val, t.ok)))
      else
        some ({ t with pc := 3, val := val, ok := false },
          { s with store := s.store.insert key val },
          some (.loadOrStore key val, some (val, false)))
    | 3 =>
      s.mu.Unlock.map fun mu =>
        (t.ret (.loadOrStore key val) rest (some (t.val, t.ok)), { s with mu := mu }, none)
    | _ => none

/-- A thread before its first step, with the calls `p` to make. -/
def Thread.start (p : List (Op K V)) : Thread K V :=
  { calls := p, pc := 0, val := default, ok := false, done := [] }

/-- The threads before any step: thread `i` has the calls `progs[i]` to make;
the lock is free. -/
def Config.init (m : MutexMap K V) (progs : List (List (Op K V))) : Config K V :=
  { s := { mu := RWMutex.free, store := m.store },
    threads := progs.map Thread.start,
    lin := [] }

/-- Thread `i` is scheduled: it takes its next step when it can, and nothing
happens otherwise. -/
def Config.step (c : Config K V) (i : Nat) : Config K V :=
  match c.threads[i]? with
  | none => c
  | some t =>
    match t.step c.s with
    | none => c
    | some (t1, s1, commit) =>
      { s := s1, threads := c.threads.set i t1,
        lin := c.lin ++ (match commit with
          | some (op, res) => [(i, op, res)]
          | none => []) }

/-- The execution under a schedule: the list of the threads scheduled, in order. -/
def Config.exec (c : Config K V) (sched : List Nat) : Config K V :=
  sched.foldl Config.step c

/-- The thread holds the lock exclusively: it is inside a call of one of the
four writers, past its `Lock`. -/
def Thread.holdsW (t : Thread K V) : Bool :=
  match t.calls with
  | [] => false
  | .load _ :: _ => false
  | _ :: _ => decide (0 < t.pc)

/-- The thread holds the lock shared: it is inside a call of `Load`, past its
`RLock`. -/
def Thread.holdsR (t : Thread K V) : Bool :=
  match t.calls with
  | .load _ :: _ => decide (0 < t.pc)
  | _ => false

/-- The thread is between the read and the delete of `LoadAndDelete`, or between
the check and the store of `LoadOrStore`. -/
def Thread.midCall (t : Thread K V) : Bool :=
  match t.calls with
  | .loadAndDelete _ :: _ => decide (t.pc = 2)
  | .loadOrStore _ _ :: _ => decide (t.pc = 2)
  | _ => false

/-- The call in progress when it has taken effect and not yet returned, with the
result it is about to return. -/
def Thread.pending (t : Thread K V) : List (Op K V × Res V) :=
  match t.calls with
  | [] => []
  | .store key val :: _ => if t.pc = 2 then [(.store key val, none)] else []
  | .load key :: _ => if t.pc = 2 then [(.load key, some (t.val, t.ok))] else []
  | .delete key :: _ => if t.pc = 2 then [(.delete key, none)] else []
  | .loadAndDelete key :: _ =>
    if t.pc = 3 then [(.loadAndDelete key, some (t.val, t.ok))] else []
  | .loadOrStore key val :: _ =>
    if t.pc = 3 then [(.loadOrStore key val, some (t.val, t.ok))] else []

/-- The calls of the thread that have taken effect, in the order it made them:
those that returned, then the one in progress if it has. -/
def Thread.history (t : Thread K V) : List (Op K V × Res V) :=
  t.done ++ t.pending

/-- The calls of thread `i` in the order of taking effect. -/
def Config.linOf (c : Config K V) (i : Nat) : List (Op K V × Res V) :=
  (c.lin.filter fun e => decide (e.1 = i)).map fun e => e.2

/-- Two threads, both calling `LoadOrStore(4, _)`, the second then `Load(4)`. -/
def demoProgs : List (List (Op Nat Nat)) :=
  [[Op.loadOrStore 4 41], [Op.loadOrStore 4 42, Op.load 4]]

/-- A schedule in which the calls of the two threads overlap. -/
def demoSched : List Nat :=
  [1, 0, 1, 0, 1, 1, 0, 0, 1, 0, 0, 1, 0, 1, 1]

/-- The locals of a thread between the read and the delete or store of its call
are what the table holds for the key. -/
def Thread.localsOK (t : Thread K V) (s : LockedMap K V) : Prop :=
  match t.calls with
  | .loadAndDelete key :: _ => t.pc = 2 → (t.val, t.ok) = index s.store key
  | .loadOrStore key _ :: _ => t.pc = 2 → (t.val, t.ok) = index s.store key
  | _ => True

/-- What a step of a thread does to the lock and to the holds of the thread: a
statement inside a hold, or one of the four lock calls. -/
def lockEffect (t : Thread K V) (s : LockedMap K V) (t1 : Thread K V) (s1 : LockedMap K V) :
    Prop :=
  ((t.holdsW = true ∨ t.holdsR = true) ∧ t1.holdsW = t.holdsW ∧ t1.holdsR = t.holdsR ∧
      s1.mu = s.mu) ∨
    (t.holdsW = false ∧ t.holdsR = false ∧ t1.holdsW = true ∧ t1.holdsR = false ∧
      s.mu = RWMutex.free ∧ s1.mu = { writer := true, readers := 0 }) ∨
    (t.holdsW = false ∧ t.holdsR = false ∧ t1.holdsW = false ∧ t1.holdsR = true ∧
      s.mu.writer = false ∧ s1.mu = { writer := false, readers := s.mu.readers + 1 }) ∨
    (t.holdsW = true ∧ t.holdsR = false ∧ t1.holdsW = false ∧ t1.holdsR = false ∧
      s.mu.writer = true ∧ s1.mu = { writer := false, readers := s.mu.readers }) ∨
    (t.holdsW = false ∧ t.holdsR = true ∧ t1.holdsW = false ∧ t1.holdsR = false ∧
      0 < s.mu.readers ∧ s1.mu = { writer := s.mu.writer, readers := s.mu.readers - 1 })

/-- What a step of a thread does, put together. -/
structure StepFacts (t : Thread K V) (s : LockedMap K V) (t1 : Thread K V)
    (s1 : LockedMap K V) (cm : Option (Op K V × Res V)) : Prop where
  hist : t1.history = t.history ++ cm.toList
  prog : t1.done.map Prod.fst ++ t1.calls = t.done.map Prod.fst ++ t.calls
  lock : lockEffect t s t1 s1
  frame : t.holdsW = false → s1.store = s.store
  commit : t.localsOK s → ∀ op res, cm = some (op, res) → Op.call s.table op = (res, s1.table)
  quiet : cm = none → s1.store = s.store
  locals : t1.localsOK s1

/-- The lock tells who holds it: either no thread holds it exclusively and the
reader count is the number of threads holding it shared, or one thread holds it
exclusively and none holds it shared. -/
def Config.lockInv (c : Config K V) : Prop :=
  (c.s.mu.writer = false ∧ c.threads.countP Thread.holdsW = 0 ∧
      c.s.mu.readers = c.threads.countP Thread.holdsR) ∨
    (c.s.mu = { writer := true, readers := 0 } ∧ c.threads.countP Thread.holdsW = 1 ∧
      c.threads.countP Thread.holdsR = 0)

/-- What holds of every configuration an execution reaches from the table of
`m0` and the programs `progs`. -/
structure Config.Inv (m0 : MutexMap K V) (progs : List (List (Op K V))) (c : Config K V) :
    Prop where
  lock : c.lockInv
  seq : seqRun m0 (c.lin.map fun e => e.2.1) = (c.lin.map fun e => e.2.2, c.s.table)
  thr : ∀ i t, c.threads[i]? = some t →
    t.localsOK c.s ∧ c.linOf i = t.history ∧
      progs[i]? = some (t.done.map Prod.fst ++ t.calls)

end Interleaving

/-! ## Reading the table -/

section Lemmas

variable {K : Type u} {V : Type v} [DecidableEq K] [Inhabited V]

theorem index_of_lookup_some {t : AList (fun _ : K => V)} {key : K} {val : V}
    (h : t.lookup key = some val) : index t key = (val, true) := by
  simp [index, h]

theorem index_of_not_mem {t : AList (fun _ : K => V)} {key : K} (h : key ∉ t) :
    index t key = (default, false) := by
  have h0 : t.lookup key = none := AList.lookup_eq_none.mpr h
  simp [index, h0]

theorem index_snd_eq_true_iff (t : AList (fun _ : K => V)) (key : K) :
    (index t key).2 = true ↔ key ∈ t := by
  cases h : t.lookup key with
  | none =>
    have hn : key ∉ t := AList.lookup_eq_none.mp h
    simp [index, h, hn]
  | some val =>
    have hm : key ∈ t := by
      rw [← AList.lookup_isSome, h]; rfl
    simp [index, h, hm]

theorem index_eq_true_iff (t : AList (fun _ : K => V)) (key : K) (val : V) :
    index t key = (val, true) ↔ t.lookup key = some val := by
  cases h : t.lookup key with
  | none => simp [index, h]
  | some val0 => simp [index, h]

theorem index_insert_self (t : AList (fun _ : K => V)) (key : K) (val : V) :
    index (t.insert key val) key = (val, true) :=
  index_of_lookup_some (AList.lookup_insert t)

theorem index_insert_ne (t : AList (fun _ : K => V)) {key k : K} (val : V) (h : k ≠ key) :
    index (t.insert key val) k = index t k := by
  simp [index, AList.lookup_insert_ne h]

theorem index_erase_self (t : AList (fun _ : K => V)) (key : K) :
    index (t.erase key) key = (default, false) := by
  simp [index, AList.lookup_erase]

theorem index_erase_ne (t : AList (fun _ : K => V)) {key k : K} (h : k ≠ key) :
    index (t.erase key) k = index t k := by
  simp [index, AList.lookup_erase_ne h]

omit [Inhabited V] in
theorem erase_of_not_mem {t : AList (fun _ : K => V)} {key : K} (h : key ∉ t) :
    t.erase key = t := by
  apply AList.ext
  exact List.kerase_of_not_mem_keys h

theorem Load_fst (m : MutexMap K V) (key : K) : (Load m key).1 = index m.store key := rfl

theorem Load_snd (m : MutexMap K V) (key : K) : (Load m key).2 = m := rfl

/-- A call allowed after `Store(key, val)` keeps what a read of `key` yields. -/
theorem step_leavesKey (m : MutexMap K V) (key : K) (val : V) (op : Op K V)
    (hop : op.leavesKey key = true) (hm : index m.store key = (val, true)) :
    index (Op.step m op).store key = (val, true) := by
  cases op with
  | store k x =>
    have hk : key ≠ k := fun e => (of_decide_eq_true hop) e.symm
    simpa [Op.step, Store, index_insert_ne _ _ hk] using hm
  | load k => simpa [Op.step, Load] using hm
  | delete k =>
    have hk : key ≠ k := fun e => (of_decide_eq_true hop) e.symm
    simpa [Op.step, Delete, index_erase_ne _ hk] using hm
  | loadAndDelete k =>
    have hk : key ≠ k := fun e => (of_decide_eq_true hop) e.symm
    by_cases hl : (index m.store k).2 = true
    · simpa [Op.step, LoadAndDelete, hl, index_erase_ne _ hk] using hm
    · simpa [Op.step, LoadAndDelete, hl] using hm
  | loadOrStore k x =>
    by_cases hl : (index m.store k).2 = true
    · simpa [Op.step, LoadOrStore, hl] using hm
    · have hk : key ≠ k := by
        intro e
        subst e
        rw [hm] at hl
        exact hl rfl
      simpa [Op.step, LoadOrStore, hl, index_insert_ne _ _ hk] using hm

theorem runOps_leavesKey (key : K) (val : V) (ops : List (Op K V)) :
    ∀ m : MutexMap K V, (∀ op ∈ ops, op.leavesKey key = true) →
      index m.store key = (val, true) → index (runOps m ops).store key = (val, true) := by
  induction ops with
  | nil => intro m _ hm; simpa [runOps] using hm
  | cons op rest ih =>
    intro m hops hm
    have h1 := step_leavesKey m key val op (hops op (List.mem_cons_self _ _)) hm
    have h2 := ih (Op.step m op) (fun o ho => hops o (List.mem_cons_of_mem _ ho)) h1
    simpa [runOps] using h2

/-- A call that never stores `key` keeps `key` absent. -/
theorem step_neverStores (m : MutexMap K V) (key : K) (op : Op K V)
    (hop : op.neverStores key = true) (hm : key ∉ m.store) :
    key ∉ (Op.step m op).store := by
  cases op with
  | store k x =>
    have hk : key ≠ k := fun e => (of_decide_eq_true hop) e.symm
    simp [Op.step, Store, AList.mem_insert, hk, hm]
  | load k => simpa [Op.step, Load] using hm
  | delete k => simp [Op.step, Delete, AList.mem_erase, hm]
  | loadAndDelete k =>
    by_cases hl : (index m.store k).2 = true
    · simp [Op.step, LoadAndDelete, hl, AList.mem_erase, hm]
    · simpa [Op.step, LoadAndDelete, hl] using hm
  | loadOrStore k x =>
    have hk : key ≠ k := fun e => (of_decide_eq_true hop) e.symm
    by_cases hl : (index m.store k).2 = true
    · simpa [Op.step, LoadOrStore, hl] using hm
    · simp [Op.step, LoadOrStore, hl, AList.mem_insert, hk, hm]

theorem runOps_neverStores (key : K) (ops : List (Op K V)) :
    ∀ m : MutexMap K V, (∀ op ∈ ops, op.neverStores key = true) →
      key ∉ m.store → key ∉ (runOps m ops).store := by
  induction ops with
  | nil => intro m _ hm; simpa [runOps] using hm
  | cons op rest ih =>
    intro m hops hm
    have h1 := step_neverStores m key op (hops op (List.mem_cons_self _ _)) hm
    have h2 := ih (Op.step m op) (fun o ho => hops o (List.mem_cons_of_mem _ ho)) h1
    simpa [runOps] using h2

theorem storeAll_cons (m : MutexMap K V) (kv : K × V) (kvs : List (K × V)) :
    storeAll m (kv :: kvs) = storeAll (Store m kv.1 kv.2) kvs := by
  simp [storeAll, runOps, Op.step]

/-- Storing under other keys leaves the entry of `k` as it was. -/
theorem lookup_storeAll_of_not_mem (k : K) (kvs : List (K × V)) :
    ∀ m : MutexMap K V, k ∉ kvs.map Prod.fst →
      (storeAll m kvs).store.lookup k = m.store.lookup k := by
  induction kvs with
  | nil => intro m _; simp [storeAll, runOps]
  | cons kv kvs ih =>
    intro m hk
    simp only [List.map_cons, List.mem_cons, not_or] at hk
    rw [storeAll_cons, ih _ hk.2]
    simp only [Store]
    exact AList.lookup_insert_ne hk.1

/-- With pairwise distinct keys, every stored pair is in the final table. -/
theorem lookup_storeAll_of_mem (k : K) (v : V) (kvs : List (K × V)) :
    ∀ m : MutexMap K V, (kvs.map Prod.fst).Nodup → (k, v) ∈ kvs →
      (storeAll m kvs).store.lookup k = some v := by
  induction kvs with
  | nil => intro m _ h; simp at h
  | cons kv kvs ih =>
    intro m hnd hmem
    simp only [List.map_cons, List.nodup_cons] at hnd
    rw [storeAll_cons]
    rcases List.mem_cons.mp hmem with h | h
    · subst h
      rw [lookup_storeAll_of_not_mem _ kvs _ hnd.1]
      simp only [Store]
      exact AList.lookup_insert m.store
    · exact ih _ hnd.2 h

/-- With pairwise distinct keys, the final table reads the same at every key in
whatever order the calls take effect. -/
theorem lookup_storeAll_perm (m : MutexMap K V) (kvs kvs1 : List (K × V))
    (hnd : (kvs.map Prod.fst).Nodup) (hp : kvs1.Perm kvs) (k : K) :
    (storeAll m kvs1).store.lookup k = (storeAll m kvs).store.lookup k := by
  have hnd1 : (kvs1.map Prod.fst).Nodup := (hp.map Prod.fst).nodup_iff.mpr hnd
  by_cases hk : k ∈ kvs.map Prod.fst
  · obtain ⟨kv, hkv, hfst⟩ := List.mem_map.mp hk
    have h0 : (k, kv.2) ∈ kvs := by rw [← hfst]; exact hkv
    rw [lookup_storeAll_of_mem k kv.2 kvs m hnd h0,
      lookup_storeAll_of_mem k kv.2 kvs1 m hnd1 (hp.mem_iff.mpr h0)]
  · have hk1 : k ∉ kvs1.map Prod.fst := fun h => hk ((hp.map Prod.fst).mem_iff.mp h)
    rw [lookup_storeAll_of_not_mem k kvs m hk, lookup_storeAll_of_not_mem k kvs1 m hk1]

/-- Once the key is present, every further `LoadOrStore` observes the stored
value with `true` and changes nothing. -/
theorem loadOrStoreAll_present (key : K) (v0 : V) (vals : List V) :
    ∀ m : MutexMap K V, m.store.lookup key = some v0 →
      loadOrStoreAll m key vals = (List.replicate vals.length (v0, true), m) := by
  induction vals with
  | nil => intro m _; rfl
  | cons val vals ih =>
    intro m h
    have hi : index m.store key = (v0, true) := index_of_lookup_some h
    have hs : LoadOrStore m key val = ((v0, true), m) := by simp [LoadOrStore, hi]
    simp only [loadOrStoreAll, hs, ih m h, List.length_cons, List.replicate_succ]

end Lemmas

/-! ## The loop of `Range` -/

section RangeLemmas

variable {K : Type u} {V : Type v} {σ : Type w} [DecidableEq K] [Inhabited V]

/-- One turn of the loop, by what the re-`Load` and the visitor return. -/
theorem rangeLoop_cons (f : Visitor K V σ) (k : K) (ks : List K) (st : σ × MutexMap K V) :
    rangeLoop f (k :: ks) st =
      if (index st.2.store k).2 = true then
        if (f k (index st.2.store k).1 st).1 = true then
          ((k, (index st.2.store k).1, true) ::
              (rangeLoop f ks (f k (index st.2.store k).1 st).2).1,
            (rangeLoop f ks (f k (index st.2.store k).1 st).2).2)
        else ([(k, (index st.2.store k).1, false)], (f k (index st.2.store k).1 st).2)
      else rangeLoop f ks st := by
  rcases hi : index st.2.store k with ⟨v, ok⟩
  rcases hf : f k v st with ⟨cont, st1⟩
  cases ok <;> cases cont <;> simp [rangeLoop, Load, hi, hf]

/-- The re-`Load` misses: `continue`. -/
theorem rangeLoop_miss (f : Visitor K V σ) (k : K) (ks : List K) (st : σ × MutexMap K V)
    (hok : (index st.2.store k).2 = false) : rangeLoop f (k :: ks) st = rangeLoop f ks st := by
  rw [rangeLoop_cons]
  simp [hok]

/-- The visitor returns `false`: `break`. -/
theorem rangeLoop_stop (f : Visitor K V σ) (k : K) (ks : List K) (st : σ × MutexMap K V)
    (hok : (index st.2.store k).2 = true) (hc : (f k (index st.2.store k).1 st).1 = false) :
    rangeLoop f (k :: ks) st =
      ([(k, (index st.2.store k).1, false)], (f k (index st.2.store k).1 st).2) := by
  rw [rangeLoop_cons]
  simp [hok, hc]

/-- The visitor returns `true`: on to the next key. -/
theorem rangeLoop_go (f : Visitor K V σ) (k : K) (ks : List K) (st : σ × MutexMap K V)
    (hok : (index st.2.store k).2 = true) (hc : (f k (index st.2.store k).1 st).1 = true) :
    rangeLoop f (k :: ks) st =
      ((k, (index st.2.store k).1, true) ::
          (rangeLoop f ks (f k (index st.2.store k).1 st).2).1,
        (rangeLoop f ks (f k (index st.2.store k).1 st).2).2) := by
  rw [rangeLoop_cons]
  simp [hok, hc]

/-- A key absent on the re-`Load` is skipped: the loop goes on with the rest. -/
theorem rangeLoop_cons_miss (f : Visitor K V σ) (k : K) (ks : List K) (st : σ × MutexMap K V)
    (h : k ∉ st.2.store) : rangeLoop f (k :: ks) st = rangeLoop f ks st :=
  rangeLoop_miss f k ks st (by rw [index_of_not_mem h])

/-- Every key passed to the visitor is one of the keys the loop runs over. -/
theorem rangeLoop_keys_mem (f : Visitor K V σ) (ks : List K) :
    ∀ st : σ × MutexMap K V, ∀ e ∈ (rangeLoop f ks st).1, e.1 ∈ ks := by
  induction ks with
  | nil => intro st e he; simp [rangeLoop] at he
  | cons k ks ih =>
    intro st e he
    cases hok : (index st.2.store k).2 with
    | false =>
      rw [rangeLoop_miss f k ks st hok] at he
      exact List.mem_cons_of_mem _ (ih _ e he)
    | true =>
      cases hc : (f k (index st.2.store k).1 st).1 with
      | false =>
        rw [rangeLoop_stop f k ks st hok hc, List.mem_singleton] at he
        simp [he]
      | true =>
        rw [rangeLoop_go f k ks st hok hc, List.mem_cons] at he
        rcases he with he | he
        · simp [he]
        · exact List.mem_cons_of_mem _ (ih _ e he)

/-- No invocation follows one that returned `false`. -/
theorem rangeLoop_false_last (f : Visitor K V σ) (ks : List K) :
    ∀ (st : σ × MutexMap K V) (pre : List (Call K V)) (e : Call K V) (post : List (Call K V)),
      (rangeLoop f ks st).1 = pre ++ e :: post → e.2.2 = false → post = [] := by
  induction ks with
  | nil =>
    intro st pre e post h _
    simp [rangeLoop] at h
  | cons k ks ih =>
    intro st pre e post h he
    cases hok : (index st.2.store k).2 with
    | false =>
      rw [rangeLoop_miss f k ks st hok] at h
      exact ih st pre e post h he
    | true =>
      cases hc : (f k (index st.2.store k).1 st).1 with
      | false =>
        rw [rangeLoop_stop f k ks st hok hc] at h
        cases pre with
        | nil =>
          simp only [List.nil_append, List.cons.injEq] at h
          exact h.2.symm
        | cons p pre1 => simp at h
      | true =>
        rw [rangeLoop_go f k ks st hok hc] at h
        cases pre with
        | nil =>
          simp only [List.nil_append, List.cons.injEq] at h
          rw [← h.1] at he
          simp at he
        | cons p pre1 =>
          simp only [List.cons_append, List.cons.injEq] at h
          exact ih _ pre1 e post h.2 he

/-- While no invocation returns `false`, the loop over `ks1 ++ ks2` is the loop
over `ks1` followed by the loop over `ks2` from the state reached. -/
theorem rangeLoop_append (f : Visitor K V σ) (ks1 ks2 : List K) :
    ∀ st : σ × MutexMap K V, (∀ e ∈ (rangeLoop f ks1 st).1, e.2.2 = true) →
      rangeLoop f (ks1 ++ ks2) st =
        ((rangeLoop f ks1 st).1 ++ (rangeLoop f ks2 (rangeLoop f ks1 st).2).1,
          (rangeLoop f ks2 (rangeLoop f ks1 st).2).2) := by
  induction ks1 with
  | nil => intro st _; simp [rangeLoop]
  | cons k ks ih =>
    intro st h
    rw [List.cons_append]
    cases hok : (index st.2.store k).2 with
    | false =>
      rw [rangeLoop_miss f k ks st hok] at h ⊢
      rw [rangeLoop_miss f k (ks ++ ks2) st hok]
      exact ih st h
    | true =>
      cases hc : (f k (index st.2.store k).1 st).1 with
      | false =>
        rw [rangeLoop_stop f k ks st hok hc] at h
        have := h _ (List.mem_singleton_self _)
        simp at this
      | true =>
        rw [rangeLoop_go f k ks st hok hc] at h ⊢
        rw [rangeLoop_go f k (ks ++ ks2) st hok hc]
        have h1 := ih (f k (index st.2.store k).1 st).2
          (fun e he => h e (List.mem_cons_of_mem _ he))
        rw [h1]
        simp

/-- When the invocation for `k` returned `false`, every invocation was for `k`
or for a key that precedes it in the list. -/
theorem rangeLoop_false_split (f : Visitor K V σ) (k : K) (v : V) (ks2 : List K) (ks1 : List K) :
    ∀ st : σ × MutexMap K V, (ks1 ++ k :: ks2).Nodup →
      (k, v, false) ∈ (rangeLoop f (ks1 ++ k :: ks2) st).1 →
      ∀ e ∈ (rangeLoop f (ks1 ++ k :: ks2) st).1, e.1 ∈ ks1 ∨ e.1 = k := by
  induction ks1 with
  | nil =>
    intro st hnd hk e he
    have hk2 : k ∉ ks2 := (List.nodup_cons.mp hnd).1
    rw [List.nil_append] at hk he
    cases hok : (index st.2.store k).2 with
    | false =>
      rw [rangeLoop_miss f k ks2 st hok] at hk
      exact absurd (rangeLoop_keys_mem f ks2 _ _ hk) hk2
    | true =>
      cases hc : (f k (index st.2.store k).1 st).1 with
      | false =>
        rw [rangeLoop_stop f k ks2 st hok hc, List.mem_singleton] at he
        right; simp [he]
      | true =>
        rw [rangeLoop_go f k ks2 st hok hc] at hk
        simp only [List.mem_cons, Prod.mk.injEq, Bool.false_eq_true, and_false, false_or] at hk
        exact absurd (rangeLoop_keys_mem f ks2 _ _ hk) hk2
  | cons a ks ih =>
    intro st hnd hk e he
    rw [List.cons_append] at hnd hk he
    have hnd1 : (ks ++ k :: ks2).Nodup := (List.nodup_cons.mp hnd).2
    have hak : a ≠ k := by
      intro e0
      apply (List.nodup_cons.mp hnd).1
      rw [e0]
      simp
    cases hok : (index st.2.store a).2 with
    | false =>
      rw [rangeLoop_miss f a _ st hok] at hk he
      rcases ih _ hnd1 hk e he with h1 | h1
      · left; exact List.mem_cons_of_mem _ h1
      · right; exact h1
    | true =>
      cases hc : (f a (index st.2.store a).1 st).1 with
      | false =>
        rw [rangeLoop_stop f a _ st hok hc, List.mem_singleton] at he
        left; simp [he]
      | true =>
        rw [rangeLoop_go f a _ st hok hc] at hk he
        simp only [List.mem_cons, Prod.mk.injEq] at hk he
        rcases hk with hk | hk
        · exact absurd hk.1.symm hak
        · rcases he with he | he
          · left; simp [he]
          · rcases ih _ hnd1 hk e he with h1 | h1
            · left; exact List.mem_cons_of_mem _ h1
            · right; exact h1

omit [DecidableEq K] [Inhabited V] in
/-- The key snapshot lists every key of the table once. -/
theorem snapshot_nodup (order : IterOrder K) (m : MutexMap K V) : (snapshot order m).Nodup :=
  (order.perm m.store.keys).nodup_iff.mpr m.store.keys_nodup

omit [DecidableEq K] [Inhabited V] in
theorem mem_snapshot (order : IterOrder K) (m : MutexMap K V) (k : K) :
    k ∈ snapshot order m ↔ k ∈ m.store := by
  rw [AList.mem_keys]
  exact (order.perm m.store.keys).mem_iff

/-- Every invocation in the log is made at the state the loop reaches after the
keys that precede its key: none of the earlier invocations returned `false`,
the value passed is the one read from the table in that state, and the logged
boolean is what the visitor returned there. -/
theorem rangeLoop_call_state (f : Visitor K V σ) (ks : List K) :
    ∀ (st : σ × MutexMap K V) (pre : List (Call K V)) (e : Call K V) (post : List (Call K V)),
      (rangeLoop f ks st).1 = pre ++ e :: post →
      ∃ ks1 ks2, ks = ks1 ++ e.1 :: ks2 ∧ (rangeLoop f ks1 st).1 = pre ∧
        (∀ x ∈ pre, x.2.2 = true) ∧
        index (rangeLoop f ks1 st).2.2.store e.1 = (e.2.1, true) ∧
        e.2.2 = (f e.1 e.2.1 (rangeLoop f ks1 st).2).1 := by
  induction ks with
  | nil =>
    intro st pre e post h
    simp [rangeLoop] at h
  | cons k ks ih =>
    intro st pre e post h
    cases hok : (index st.2.store k).2 with
    | false =>
      rw [rangeLoop_miss f k ks st hok] at h
      obtain ⟨ks1, ks2, h1, h2, h3, h4, h5⟩ := ih st pre e post h
      refine ⟨k :: ks1, ks2, by rw [h1]; rfl, ?_, h3, ?_, ?_⟩
      · rw [rangeLoop_miss f k ks1 st hok]; exact h2
      · rw [rangeLoop_miss f k ks1 st hok]; exact h4
      · rw [rangeLoop_miss f k ks1 st hok]; exact h5
    | true =>
      have hidx : index st.2.store k = ((index st.2.store k).1, true) := by
        rw [← hok]
      cases hc : (f k (index st.2.store k).1 st).1 with
      | false =>
        rw [rangeLoop_stop f k ks st hok hc] at h
        cases pre with
        | nil =>
          simp only [List.nil_append, List.cons.injEq] at h
          refine ⟨[], ks, by rw [← h.1]; rfl, rfl, by simp, ?_, ?_⟩
          · rw [← h.1]; exact hidx
          · rw [← h.1]; exact hc.symm
        | cons p pre1 => simp at h
      | true =>
        rw [rangeLoop_go f k ks st hok hc] at h
        cases pre with
        | nil =>
          simp only [List.nil_append, List.cons.injEq] at h
          refine ⟨[], ks, by rw [← h.1]; rfl, rfl, by simp, ?_, ?_⟩
          · rw [← h.1]; exact hidx
          · rw [← h.1]; exact hc.symm
        | cons p pre1 =>
          simp only [List.cons_append, List.cons.injEq] at h
          obtain ⟨ks1, ks2, h1, h2, h3, h4, h5⟩ := ih _ pre1 e post h.2
          refine ⟨k :: ks1, ks2, by rw [h1]; rfl, ?_, ?_, ?_, ?_⟩
          · rw [rangeLoop_go f k ks1 st hok hc, h2, ← h.1]
          · intro x hx
            rcases List.mem_cons.mp hx with hx | hx
            · rw [hx, ← h.1]
            · exact h3 x hx
          · rw [rangeLoop_go f k ks1 st hok hc]; exact h4
          · rw [rangeLoop_go f k ks1 st hok hc]; exact h5

/-- A key present on the re-`Load` is passed to the visitor with the value read. -/
theorem rangeLoop_cons_hit (f : Visitor K V σ) (k : K) (v : V) (ks : List K)
    (st : σ × MutexMap K V) (h : index st.2.store k = (v, true)) :
    ∃ post, (rangeLoop f (k :: ks) st).1 = (k, v, (f k v st).1) :: post := by
  have hok : (index st.2.store k).2 = true := by rw [h]
  have hv : (index st.2.store k).1 = v := by rw [h]
  cases hc : (f k (index st.2.store k).1 st).1 with
  | false =>
    rw [rangeLoop_stop f k ks st hok hc]
    rw [hv] at hc ⊢
    exact ⟨[], by rw [hc]⟩
  | true =>
    rw [rangeLoop_go f k ks st hok hc]
    rw [hv] at hc ⊢
    exact ⟨_, by rw [hc]⟩

/-- The keys passed to the visitor are, in order, a selection of the keys the
loop runs over. -/
theorem rangeLoop_keys_sublist (f : Visitor K V σ) (ks : List K) :
    ∀ st : σ × MutexMap K V, ((rangeLoop f ks st).1.map fun e => e.1).Sublist ks := by
  induction ks with
  | nil => intro st; simp [rangeLoop]
  | cons k ks ih =>
    intro st
    cases hok : (index st.2.store k).2 with
    | false =>
      rw [rangeLoop_miss f k ks st hok]
      exact (ih st).cons k
    | true =>
      cases hc : (f k (index st.2.store k).1 st).1 with
      | false =>
        rw [rangeLoop_stop f k ks st hok hc]
        simp
      | true =>
        rw [rangeLoop_go f k ks st hok hc]
        simp only [List.map_cons]
        exact (ih _).cons₂ k

/-- With a visitor that leaves the map alone and always returns `true`, the loop
over keys of the table visits each of them, in order, with its stored value,
and the map is left as it was. -/
theorem rangeLoop_quiescent (f : Visitor K V σ)
    (hf : ∀ k v s, (f k v s).1 = true ∧ (f k v s).2.2 = s.2) (ks : List K) :
    ∀ st : σ × MutexMap K V, (∀ k ∈ ks, k ∈ st.2.store) →
      (rangeLoop f ks st).1 = ks.map (fun k => (k, (index st.2.store k).1, true)) ∧
        (rangeLoop f ks st).2.2 = st.2 := by
  induction ks with
  | nil => intro st _; simp [rangeLoop]
  | cons k ks ih =>
    intro st hks
    have hok : (index st.2.store k).2 = true :=
      (index_snd_eq_true_iff _ _).mpr (hks k (List.mem_cons_self _ _))
    have hc := (hf k (index st.2.store k).1 st).1
    have hm := (hf k (index st.2.store k).1 st).2
    rw [rangeLoop_go f k ks st hok hc]
    have h1 := ih (f k (index st.2.store k).1 st).2 (by
      intro k1 hk1
      rw [hm]
      exact hks k1 (List.mem_cons_of_mem _ hk1))
    rw [hm] at h1
    exact ⟨by rw [h1.1]; rfl, h1.2⟩

/-- Listing each key of a table with the value read for it lists its entries. -/
theorem keys_map_index (t : AList (fun _ : K => V)) :
    t.keys.map (fun k => (⟨k, (index t k).1⟩ : Sigma fun _ : K => V)) = t.entries := by
  have h : ∀ e ∈ t.entries, (⟨e.1, (index t e.1).1⟩ : Sigma fun _ : K => V) = e := by
    intro e he
    have hl : t.lookup e.1 = some e.2 := by
      have := (AList.mem_lookup_iff (s := t) (a := e.1) (b := e.2)).mpr he
      simpa using this
    rw [index_of_lookup_some hl]
  simp only [AList.keys, List.keys, List.map_map]
  conv_rhs => rw [← List.map_id t.entries]
  exact List.map_congr_left h

end RangeLemmas

/-! ## The contracts of the single-key methods -/

section Contracts

variable {K : Type u} {V : Type v} [DecidableEq K] [Inhabited V]

/-- C1: right after `Store(K0, V0)`, `Load(K0)` returns `(V0, true)` whatever
the table held before, and it still does after any further sequence of `Load`
calls, `LoadOrStore` calls on any key, and `Store`, `Delete`, `LoadAndDelete`
calls on keys other than `K0`. -/
theorem store_then_load (m : MutexMap K V) (K0 : K) (V0 : V) (ops : List (Op K V))
    (hops : ∀ op ∈ ops, op.leavesKey K0 = true) :
    (Load (Store m K0 V0) K0).1 = (V0, true) ∧
      (Load (runOps (Store m K0 V0) ops) K0).1 = (V0, true) := by
  have h0 : index (Store m K0 V0).store K0 = (V0, true) := index_insert_self m.store K0 V0
  exact ⟨h0, runOps_leavesKey K0 V0 ops _ hops h0⟩

/-- C2: on the map returned by `NewMutexMap`, and after any sequence of calls
of the single-key methods in which `K0` is never the key of a `Store` or a
`LoadOrStore`, `Load(K0)` returns the zero value and `false`. -/
theorem load_never_stored (K0 : K) (ops : List (Op K V))
    (hops : ∀ op ∈ ops, op.neverStores K0 = true) :
    (Load (NewMutexMap : MutexMap K V) K0).1 = (default, false) ∧
      (Load (runOps (NewMutexMap : MutexMap K V) ops) K0).1 = (default, false) := by
  have h0 : K0 ∉ (NewMutexMap : MutexMap K V).store := AList.not_mem_empty K0
  exact ⟨index_of_not_mem h0, index_of_not_mem (runOps_neverStores K0 ops _ hops h0)⟩

/-- C3: after `Delete(K0)`, `Load(K0)` returns the zero value and `false`; and
when `K0` is absent, `Delete(K0)` returns the map state unchanged. -/
theorem delete_then_load (m : MutexMap K V) (K0 : K) :
    (Load (Delete m K0) K0).1 = (default, false) ∧ (K0 ∉ m.store → Delete m K0 = m) := by
  refine ⟨index_erase_self m.store K0, fun h => ?_⟩
  simp [Delete, erase_of_not_mem h]

/-- C4: when `K0` holds `V0`, `LoadAndDelete(K0)` returns `(V0, true)` and
leaves `K0` absent: a following `Load(K0)` returns the zero value and `false`. -/
theorem loadAndDelete_present (m : MutexMap K V) (K0 : K) (V0 : V)
    (h : m.store.lookup K0 = some V0) :
    (LoadAndDelete m K0).1 = (V0, true) ∧ K0 ∉ (LoadAndDelete m K0).2.store ∧
      (Load (LoadAndDelete m K0).2 K0).1 = (default, false) := by
  have hi : index m.store K0 = (V0, true) := index_of_lookup_some h
  have hs : (LoadAndDelete m K0).2 = Delete m K0 := by simp [LoadAndDelete, hi, Delete]
  refine ⟨by simp [LoadAndDelete, hi], ?_, ?_⟩
  · rw [hs]; simp [Delete, AList.mem_erase]
  · rw [hs]; exact index_erase_self m.store K0

/-- C5: when `K0` is absent, `LoadAndDelete(K0)` returns the zero value and
`false` and leaves the table as it was. -/
theorem loadAndDelete_absent (m : MutexMap K V) (K0 : K) (h : K0 ∉ m.store) :
    LoadAndDelete m K0 = ((default, false), m) := by
  simp [LoadAndDelete, index_of_not_mem h]

/-- C6: when `K0` is absent, `LoadOrStore(K0, V1)` returns `(V1, false)` and a
following `Load(K0)` returns `(V1, true)`. -/
theorem loadOrStore_absent (m : MutexMap K V) (K0 : K) (V1 : V) (h : K0 ∉ m.store) :
    (LoadOrStore m K0 V1).1 = (V1, false) ∧
      (Load (LoadOrStore m K0 V1).2 K0).1 = (V1, true) := by
  have hs : LoadOrStore m K0 V1 = ((V1, false), Store m K0 V1) := by
    simp [LoadOrStore, index_of_not_mem h, Store]
  rw [hs]
  exact ⟨rfl, index_insert_self m.store K0 V1⟩

/-- C7: when `K0` already holds `V1`, `LoadOrStore(K0, V2)` returns `(V1, true)`,
the stored value and not the argument, and the map state is the one before the
call: `Load(K0)` still returns `(V1, true)` and every key reads as before. -/
theorem loadOrStore_present (m : MutexMap K V) (K0 : K) (V1 V2 : V)
    (h : m.store.lookup K0 = some V1) :
    (LoadOrStore m K0 V2).1 = (V1, true) ∧ (LoadOrStore m K0 V2).2 = m ∧
      (Load (LoadOrStore m K0 V2).2 K0).1 = (V1, true) ∧
      ∀ k, (Load (LoadOrStore m K0 V2).2 k).1 = (Load m k).1 := by
  have hi : index m.store K0 = (V1, true) := index_of_lookup_some h
  have hs : LoadOrStore m K0 V2 = ((V1, true), m) := by simp [LoadOrStore, hi]
  rw [hs]
  exact ⟨rfl, rfl, hi, fun _ => rfl⟩

/-- C12: when `Store(K_i, V_i)` is called for pairwise distinct keys, then in
whatever order the calls take effect the final table holds the same entries,
`Load(K_i)` returns `(V_i, true)` for every `i`, and every other key reads as it
did before. -/
theorem store_distinct_keys (m : MutexMap K V) (kvs kvs1 : List (K × V))
    (hnd : (kvs.map Prod.fst).Nodup) (hp : kvs1.Perm kvs) :
    (storeAll m kvs1).store.entries.Perm (storeAll m kvs).store.entries ∧
      (∀ k, (Load (storeAll m kvs1) k).1 = (Load (storeAll m kvs) k).1) ∧
      (∀ kv ∈ kvs, (Load (storeAll m kvs1) kv.1).1 = (kv.2, true)) ∧
      (∀ k, k ∉ kvs.map Prod.fst → (Load (storeAll m kvs1) k).1 = (Load m k).1) := by
  have hnd1 : (kvs1.map Prod.fst).Nodup := (hp.map Prod.fst).nodup_iff.mpr hnd
  have hl := lookup_storeAll_perm m kvs kvs1 hnd hp
  refine ⟨?_, ?_, ?_, ?_⟩
  · apply List.lookup_ext (storeAll m kvs1).store.nodupKeys (storeAll m kvs).store.nodupKeys
    intro x y
    have := hl x
    simp only [AList.lookup] at this
    rw [this]
  · intro k
    simp only [Load_fst, index, hl k]
  · intro kv hkv
    exact index_of_lookup_some
      (lookup_storeAll_of_mem kv.1 kv.2 kvs1 m hnd1 (hp.mem_iff.mpr hkv))
  · intro k hk
    have hk1 : k ∉ kvs1.map Prod.fst := fun h => hk ((hp.map Prod.fst).mem_iff.mp h)
    simp only [Load_fst, index, lookup_storeAll_of_not_mem k kvs1 m hk1]

/-- C13: when `LoadOrStore(K0, V_m)` is called for a key absent beforehand, then
in whatever order the calls take effect (the list, first call first) the first
caller observes its own argument with `false`, every other caller observes
that same value with `true`, exactly one caller observes `false`, only that
value is stored and `Load(K0)` afterwards returns it with `true`. -/
theorem loadOrStore_same_key (m : MutexMap K V) (K0 : K) (v0 : V) (rest : List V)
    (h : K0 ∉ m.store) :
    (loadOrStoreAll m K0 (v0 :: rest)).1 = (v0, false) :: List.replicate rest.length (v0, true) ∧
      ((loadOrStoreAll m K0 (v0 :: rest)).1.filter fun r => !r.2).length = 1 ∧
      (loadOrStoreAll m K0 (v0 :: rest)).2 = Store m K0 v0 ∧
      (Load (loadOrStoreAll m K0 (v0 :: rest)).2 K0).1 = (v0, true) := by
  have hs : LoadOrStore m K0 v0 = ((v0, false), Store m K0 v0) := by
    simp [LoadOrStore, index_of_not_mem h, Store]
  have hl : (Store m K0 v0).store.lookup K0 = some v0 := AList.lookup_insert m.store
  have hr : loadOrStoreAll m K0 (v0 :: rest) =
      ((v0, false) :: List.replicate rest.length (v0, true), Store m K0 v0) := by
    simp only [loadOrStoreAll, hs, loadOrStoreAll_present K0 v0 rest _ hl]
  rw [hr]
  refine ⟨rfl, ?_, rfl, index_of_lookup_some hl⟩
  simp [List.filter_cons, List.filter_replicate]

/-- C17: a call of `Store`, `Delete`, `LoadAndDelete` or `LoadOrStore` on `K0`
leaves what `Load` returns for any other key `K1` as it was; and `Load` leaves
the map state as it was, so that a second `Load` returns the same pair. -/
theorem frame_other_keys (m : MutexMap K V) (K0 K1 : K) (V0 : V) (h : K0 ≠ K1) :
    (Load (Store m K0 V0) K1).1 = (Load m K1).1 ∧
      (Load (Delete m K0) K1).1 = (Load m K1).1 ∧
      (Load (LoadAndDelete m K0).2 K1).1 = (Load m K1).1 ∧
      (Load (LoadOrStore m K0 V0).2 K1).1 = (Load m K1).1 ∧
      (Load m K0).2 = m ∧ (Load (Load m K0).2 K0).1 = (Load m K0).1 := by
  have hne : K1 ≠ K0 := fun e => h e.symm
  refine ⟨index_insert_ne m.store V0 hne, index_erase_ne m.store hne, ?_, ?_, rfl, rfl⟩
  · by_cases hl : (index m.store K0).2 = true
    · simp [LoadAndDelete, hl, Load_fst, index_erase_ne m.store hne]
    · simp [LoadAndDelete, hl]
  · by_cases hl : (index m.store K0).2 = true
    · simp [LoadOrStore, hl]
    · simp [LoadOrStore, hl, Load_fst, index_insert_ne m.store V0 hne]

end Contracts

/-! ## The contract of `Range` -/

section RangeContracts

variable {K : Type u} {V : Type v} {σ : Type w} [DecidableEq K] [Inhabited V]

/-- C8: whatever the map, the order of the key snapshot and the visitor, no
invocation of the visitor follows one that returned `false`, and the keys that
come after that key in the snapshot are not visited; a visitor that always
returns `false` is invoked exactly once on a non-empty map and never on an
empty one. -/
theorem range_stops_on_false (order : IterOrder K) (f : Visitor K V σ)
    (st : σ × MutexMap K V) :
    (∀ pre e post, (Range order f st).1 = pre ++ e :: post → e.2.2 = false → post = []) ∧
      (∀ k v ks1 ks2, (k, v, false) ∈ (Range order f st).1 →
        snapshot order st.2 = ks1 ++ k :: ks2 → ∀ e ∈ (Range order f st).1, e.1 ∉ ks2) ∧
      ((∀ k v s, (f k v s).1 = false) →
        (st.2.store.keys ≠ [] → (Range order f st).1.length = 1) ∧
          (st.2.store.keys = [] → (Range order f st).1 = [])) := by
  refine ⟨fun pre e post h he => rangeLoop_false_last f _ st pre e post h he, ?_, ?_⟩
  · intro k v ks1 ks2 hk hsnap e he hmem
    have hnd : (ks1 ++ k :: ks2).Nodup := hsnap ▸ snapshot_nodup order st.2
    have hnd1 := List.nodup_cons.mp (List.nodup_middle.mp hnd)
    have hk2 : k ∉ ks2 := fun h => hnd1.1 (List.mem_append_right _ h)
    have hdis : ∀ x, x ∈ ks1 → x ∉ ks2 := by
      intro x hx1 hx2
      exact (List.nodup_append.mp hnd1.2).2.2 hx1 hx2
    simp only [Range, hsnap] at hk he
    rcases rangeLoop_false_split f k v ks2 ks1 st hnd hk e he with h1 | h1
    · exact hdis _ h1 hmem
    · exact hk2 (h1 ▸ hmem)
  · intro hf
    constructor
    · intro hne
      have hsn : snapshot order st.2 ≠ [] := by
        intro h0
        apply hne
        have hp := order.perm st.2.store.keys
        have h1 : order.run st.2.store.keys = [] := h0
        rw [h1] at hp
        exact hp.symm.eq_nil
      cases hs : snapshot order st.2 with
      | nil => exact absurd hs hsn
      | cons k ks =>
        have hk : k ∈ st.2.store := (mem_snapshot order st.2 k).mp (by rw [hs]; simp)
        have hok : (index st.2.store k).2 = true := (index_snd_eq_true_iff _ _).mpr hk
        simp only [Range, hs]
        rw [rangeLoop_stop f k ks st hok (hf _ _ _)]
        rfl
    · intro he
      have hs : snapshot order st.2 = [] := by
        have hp := order.perm st.2.store.keys
        rw [he] at hp
        simpa [snapshot, he] using hp.eq_nil
      simp [Range, hs, rangeLoop]

/-- C9: when the loop reaches a snapshot key `k` (no earlier invocation returned
`false`) and `k` is by then absent from the table, `Range` makes no invocation
for `k` and goes on with the keys that follow `k` in the snapshot, from the
state it had reached. -/
theorem range_skips_deleted (order : IterOrder K) (f : Visitor K V σ)
    (st : σ × MutexMap K V) (ks1 : List K) (k : K) (ks2 : List K)
    (hsnap : snapshot order st.2 = ks1 ++ k :: ks2)
    (hgo : ∀ e ∈ (rangeLoop f ks1 st).1, e.2.2 = true)
    (hdel : k ∉ (rangeLoop f ks1 st).2.2.store) :
    (∀ e ∈ (Range order f st).1, e.1 ≠ k) ∧
      Range order f st =
        ((rangeLoop f ks1 st).1 ++ (rangeLoop f ks2 (rangeLoop f ks1 st).2).1,
          (rangeLoop f ks2 (rangeLoop f ks1 st).2).2) := by
  have hnd : (ks1 ++ k :: ks2).Nodup := hsnap ▸ snapshot_nodup order st.2
  have hnd1 := List.nodup_cons.mp (List.nodup_middle.mp hnd)
  have hk1 : k ∉ ks1 := fun h => hnd1.1 (List.mem_append_left _ h)
  have hk2 : k ∉ ks2 := fun h => hnd1.1 (List.mem_append_right _ h)
  have heq : Range order f st =
      ((rangeLoop f ks1 st).1 ++ (rangeLoop f ks2 (rangeLoop f ks1 st).2).1,
        (rangeLoop f ks2 (rangeLoop f ks1 st).2).2) := by
    simp only [Range, hsnap]
    rw [rangeLoop_append f ks1 (k :: ks2) st hgo, rangeLoop_cons_miss f k ks2 _ hdel]
  refine ⟨?_, heq⟩
  intro e he hek
  rw [heq, List.mem_append] at he
  rcases he with he | he
  · exact hk1 (hek ▸ rangeLoop_keys_mem f ks1 st e he)
  · exact hk2 (hek ▸ rangeLoop_keys_mem f ks2 _ e he)

/-- C10: every key passed to the visitor was in the table when `Range` took
its key snapshot; a key absent then is never passed to the visitor by that call,
whatever the visitor stores meanwhile. -/
theorem range_visits_snapshot_keys (order : IterOrder K) (f : Visitor K V σ)
    (st : σ × MutexMap K V) :
    (∀ e ∈ (Range order f st).1, e.1 ∈ st.2.store) ∧
      (∀ k, k ∉ st.2.store → ∀ e ∈ (Range order f st).1, e.1 ≠ k) := by
  have h : ∀ e ∈ (Range order f st).1, e.1 ∈ st.2.store := fun e he =>
    (mem_snapshot order st.2 e.1).mp (rangeLoop_keys_mem f _ st e he)
  exact ⟨h, fun k hk e he hek => hk (hek ▸ h e he)⟩

/-- C11: for every invocation `visit(k, v)` made by `Range`, `v` is what `Load(k)`
returns in the state the loop has reached at that invocation (after the visits
of the earlier snapshot keys), not the value of the snapshot; when the loop
reaches a snapshot key `k` that holds `v1` by then, `visit(k, v1)` is the next
invocation. -/
theorem range_passes_current_value (order : IterOrder K) (f : Visitor K V σ)
    (st : σ × MutexMap K V) :
    (∀ pre e post, (Range order f st).1 = pre ++ e :: post →
      ∃ ks1 ks2, snapshot order st.2 = ks1 ++ e.1 :: ks2 ∧ (rangeLoop f ks1 st).1 = pre ∧
        (∀ x ∈ pre, x.2.2 = true) ∧
        (Load (rangeLoop f ks1 st).2.2 e.1).1 = (e.2.1, true) ∧
        e.2.2 = (f e.1 e.2.1 (rangeLoop f ks1 st).2).1) ∧
      (∀ ks1 k ks2 v1, snapshot order st.2 = ks1 ++ k :: ks2 →
        (∀ e ∈ (rangeLoop f ks1 st).1, e.2.2 = true) →
        (Load (rangeLoop f ks1 st).2.2 k).1 = (v1, true) →
        ∃ post, (Range order f st).1 =
          (rangeLoop f ks1 st).1 ++ (k, v1, (f k v1 (rangeLoop f ks1 st).2).1) :: post) := by
  constructor
  · intro pre e post h
    exact rangeLoop_call_state f _ st pre e post h
  · intro ks1 k ks2 v1 hsnap hgo hval
    obtain ⟨post, hp⟩ := rangeLoop_cons_hit f k v1 ks2 (rangeLoop f ks1 st).2 hval
    refine ⟨post, ?_⟩
    simp only [Range, hsnap]
    rw [rangeLoop_append f ks1 (k :: ks2) st hgo, hp]

/-- C18: with a visitor that leaves the map alone and always returns `true`,
`Range` visits the keys of the snapshot in its order, which is a rearrangement
of the keys of the table with no key twice; each invocation passes the value
stored for its key; the pairs passed are exactly the entries of the table; and
the map is left as it was. -/
theorem range_quiescent (order : IterOrder K) (f : Visitor K V σ) (st : σ × MutexMap K V)
    (hf : ∀ k v s, (f k v s).1 = true ∧ (f k v s).2.2 = s.2) :
    ((Range order f st).1.map fun e => e.1) = snapshot order st.2 ∧
      ((Range order f st).1.map fun e => e.1).Perm st.2.store.keys ∧
      ((Range order f st).1.map fun e => e.1).Nodup ∧
      (∀ e ∈ (Range order f st).1, (Load st.2 e.1).1 = (e.2.1, true)) ∧
      ((Range order f st).1.map fun e => (⟨e.1, e.2.1⟩ : Sigma fun _ : K => V)).Perm
        st.2.store.entries ∧
      (Range order f st).2.2 = st.2 := by
  have hq := rangeLoop_quiescent f hf (snapshot order st.2) st
    (fun k hk => (mem_snapshot order st.2 k).mp hk)
  have hlog : (Range order f st).1 =
      (snapshot order st.2).map (fun k => (k, (index st.2.store k).1, true)) := hq.1
  have hkeys : ((Range order f st).1.map fun e => e.1) = snapshot order st.2 := by
    rw [hlog, List.map_map]
    conv_rhs => rw [← List.map_id (snapshot order st.2)]
    exact List.map_congr_left (fun _ _ => rfl)
  refine ⟨hkeys, ?_, ?_, ?_, ?_, hq.2⟩
  · rw [hkeys]; exact order.perm _
  · rw [hkeys]; exact snapshot_nodup order st.2
  · intro e he
    rw [hlog] at he
    obtain ⟨k, hk, rfl⟩ := List.mem_map.mp he
    have hok : (index st.2.store k).2 = true :=
      (index_snd_eq_true_iff _ _).mpr ((mem_snapshot order st.2 k).mp hk)
    rw [Load_fst, ← hok]
  · rw [hlog, List.map_map, ← keys_map_index st.2.store]
    exact (order.perm st.2.store.keys).map _

/-- C19: whatever the visitor does, `Range` returns after visiting no key twice
and making at most as many invocations as the table had entries at the call:
the keys visited are, in order, a selection of the snapshot. -/
theorem range_bounded (order : IterOrder K) (f : Visitor K V σ) (st : σ × MutexMap K V) :
    ((Range order f st).1.map fun e => e.1).Sublist (snapshot order st.2) ∧
      ((Range order f st).1.map fun e => e.1).Nodup ∧
      (Range order f st).1.length ≤ st.2.store.entries.length := by
  have hsub : ((Range order f st).1.map fun e => e.1).Sublist (snapshot order st.2) :=
    rangeLoop_keys_sublist f _ st
  refine ⟨hsub, hsub.nodup (snapshot_nodup order st.2), ?_⟩
  have hlen := hsub.length_le
  have hp : (snapshot order st.2).length = st.2.store.entries.length := by
    rw [snapshot, (order.perm st.2.store.keys).length_eq]
    simp [AList.keys, List.keys]
  rw [List.length_map, hp] at hlen
  exact hlen

end RangeContracts

/-! ## The methods with their lock calls -/

section LockLemmas

variable {K : Type u} {V : Type v} {σ : Type w} [DecidableEq K] [Inhabited V]

theorem RWMutex.Lock_of_ne_free (mu : RWMutex) (h : mu ≠ RWMutex.free) : mu.Lock = none := by
  rcases mu with ⟨w, n⟩
  simp only [RWMutex.Lock]
  rw [if_neg]
  rintro ⟨h1, h2⟩
  subst h1 h2
  exact h rfl

theorem RWMutex.RLock_RUnlock (mu : RWMutex) (h : mu.writer = false) :
    ∃ mu1, mu.RLock = some mu1 ∧ mu1.RUnlock = some mu ∧ 0 < mu1.readers := by
  rcases mu with ⟨w, n⟩
  simp only at h
  subst h
  exact ⟨⟨false, n + 1⟩, by simp [RWMutex.RLock], by simp [RWMutex.RUnlock], by simp⟩

omit [Inhabited V] in
theorem StoreL_free (r : Run K V) (key : K) (val : V) (h : r.mu = RWMutex.free) :
    StoreL r key val = some
      { mu := RWMutex.free, store := r.store.insert key val,
        trace := r.trace ++ [Ev.lock, Ev.write key val, Ev.unlock] } := by
  simp [StoreL, Run.Lock, Run.write, Run.Unlock, RWMutex.Lock, RWMutex.Unlock, h, RWMutex.free]

omit [Inhabited V] in
theorem StoreL_blocked (r : Run K V) (key : K) (val : V) (h : r.mu ≠ RWMutex.free) :
    StoreL r key val = none := by
  simp [StoreL, Run.Lock, RWMutex.Lock_of_ne_free r.mu h]

omit [Inhabited V] in
theorem DeleteL_free (r : Run K V) (key : K) (h : r.mu = RWMutex.free) :
    DeleteL r key = some
      { mu := RWMutex.free, store := r.store.erase key,
        trace := r.trace ++ [Ev.lock, Ev.del key, Ev.unlock] } := by
  simp [DeleteL, Run.Lock, Run.del, Run.Unlock, RWMutex.Lock, RWMutex.Unlock, h, RWMutex.free]

omit [Inhabited V] in
theorem DeleteL_blocked (r : Run K V) (key : K) (h : r.mu ≠ RWMutex.free) :
    DeleteL r key = none := by
  simp [DeleteL, Run.Lock, RWMutex.Lock_of_ne_free r.mu h]

theorem LoadL_unblocked (r : Run K V) (key : K) (h : r.mu.writer = false) :
    LoadL r key = some
      (index r.store key, { r with trace := r.trace ++ [Ev.rlock, Ev.read key, Ev.runlock] }) := by
  obtain ⟨mu1, h1, h2, _⟩ := RWMutex.RLock_RUnlock r.mu h
  simp [LoadL, Run.RLock, Run.read, Run.RUnlock, h1, h2]

theorem LoadL_blocked (r : Run K V) (key : K) (h : r.mu.writer = true) :
    LoadL r key = none := by
  simp [LoadL, Run.RLock, RWMutex.RLock, h]

theorem LoadAndDeleteL_free (r : Run K V) (key : K) (h : r.mu = RWMutex.free) :
    LoadAndDeleteL r key = some (index r.store key,
      if (index r.store key).2 = true then
        { mu := RWMutex.free, store := r.store.erase key,
          trace := r.trace ++ [Ev.lock, Ev.read key, Ev.del key, Ev.unlock] }
      else
        { mu := RWMutex.free, store := r.store,
          trace := r.trace ++ [Ev.lock, Ev.read key, Ev.unlock] }) := by
  cases hl : (index r.store key).2 <;>
    simp [LoadAndDeleteL, Run.Lock, Run.read, Run.del, Run.Unlock, RWMutex.Lock,
      RWMutex.Unlock, h, RWMutex.free, hl]

theorem LoadAndDeleteL_blocked (r : Run K V) (key : K) (h : r.mu ≠ RWMutex.free) :
    LoadAndDeleteL r key = none := by
  simp [LoadAndDeleteL, Run.Lock, RWMutex.Lock_of_ne_free r.mu h]

theorem LoadOrStoreL_free (r : Run K V) (key : K) (val : V) (h : r.mu = RWMutex.free) :
    LoadOrStoreL r key val =
      if (index r.store key).2 = true then
        some (index r.store key,
          { mu := RWMutex.free, store := r.store,
            trace := r.trace ++ [Ev.lock, Ev.read key, Ev.unlock] })
      else
        some ((val, false),
          { mu := RWMutex.free, store := r.store.insert key val,
            trace := r.trace ++ [Ev.lock, Ev.read key, Ev.write key val, Ev.unlock] }) := by
  cases hl : (index r.store key).2 <;>
    simp [LoadOrStoreL, Run.Lock, Run.read, Run.write, Run.Unlock, RWMutex.Lock,
      RWMutex.Unlock, h, RWMutex.free, hl]

theorem LoadOrStoreL_blocked (r : Run K V) (key : K) (val : V) (h : r.mu ≠ RWMutex.free) :
    LoadOrStoreL r key val = none := by
  simp [LoadOrStoreL, Run.Lock, RWMutex.Lock_of_ne_free r.mu h]

omit [DecidableEq K] [Inhabited V] in
/-- A disciplined trace followed by a disciplined trace is disciplined. -/
theorem disciplined_append (a b : List (Ev K V)) :
    ∀ h : Held, disciplined h a = true → disciplined ⟨0, 0⟩ b = true →
      disciplined h (a ++ b) = true := by
  induction a with
  | nil =>
    intro h ha hb
    have : h = ⟨0, 0⟩ := by simpa [disciplined] using ha
    subst this
    simpa using hb
  | cons e a ih =>
    intro h ha hb
    simp only [disciplined, Bool.and_eq_true] at ha
    simp only [List.cons_append, disciplined, Bool.and_eq_true]
    exact ⟨ha.1, ih _ ha.2 hb⟩

omit [DecidableEq K] [Inhabited V] in
theorem visitsUnheld_cons (h : Held) (e : Ev K V) (es : List (Ev K V)) :
    visitsUnheld h (e :: es) = true ↔
      ((∀ key val mu, e = Ev.visit key val mu → h = ⟨0, 0⟩) ∧
        visitsUnheld (h.after e) es = true) := by
  cases e <;> simp [visitsUnheld]

omit [DecidableEq K] [Inhabited V] in
/-- Appending traces keeps the visits outside the holds, when the first trace
ends with nothing held. -/
theorem visitsUnheld_append (a b : List (Ev K V)) :
    ∀ h : Held, disciplined h a = true → visitsUnheld h a = true →
      visitsUnheld ⟨0, 0⟩ b = true → visitsUnheld h (a ++ b) = true := by
  induction a with
  | nil =>
    intro h ha _ hb
    have : h = ⟨0, 0⟩ := by simpa [disciplined] using ha
    subst this
    simpa using hb
  | cons e a ih =>
    intro h ha hv hb
    simp only [disciplined, Bool.and_eq_true] at ha
    rw [visitsUnheld_cons] at hv
    rw [List.cons_append, visitsUnheld_cons]
    exact ⟨hv.1, ih _ ha.2 hv.2 hb⟩

/-- Whenever a single-key method returns, the events it added are disciplined
and the lock is as it was at the call. -/
theorem Op.runL_disciplined (r r1 : Run K V) (op : Op K V) (h : Op.runL r op = some r1) :
    ∃ tr, r1.trace = r.trace ++ tr ∧ disciplined ⟨0, 0⟩ tr = true ∧ r1.mu = r.mu := by
  cases op with
  | store key val =>
    by_cases hf : r.mu = RWMutex.free
    · simp only [Op.runL, StoreL_free r key val hf, Option.some.injEq] at h
      subst h
      exact ⟨_, rfl, by simp [disciplined, Ev.allowed, Held.after], hf.symm⟩
    · simp [Op.runL, StoreL_blocked r key val hf] at h
  | load key =>
    cases hw : r.mu.writer with
    | false =>
      simp only [Op.runL, LoadL_unblocked r key hw, Option.map_some', Option.some.injEq] at h
      subst h
      exact ⟨_, rfl, by simp [disciplined, Ev.allowed, Held.after], rfl⟩
    | true => simp [Op.runL, LoadL_blocked r key hw] at h
  | delete key =>
    by_cases hf : r.mu = RWMutex.free
    · simp only [Op.runL, DeleteL_free r key hf, Option.some.injEq] at h
      subst h
      exact ⟨_, rfl, by simp [disciplined, Ev.allowed, Held.after], hf.symm⟩
    · simp [Op.runL, DeleteL_blocked r key hf] at h
  | loadAndDelete key =>
    by_cases hf : r.mu = RWMutex.free
    · simp only [Op.runL, LoadAndDeleteL_free r key hf, Option.map_some',
        Option.some.injEq] at h
      subst h
      cases hl : (index r.store key).2
      · exact ⟨_, by simp [hl]; rfl, by simp [disciplined, Ev.allowed, Held.after], by simp [hl, hf]⟩
      · exact ⟨_, by simp [hl]; rfl, by simp [disciplined, Ev.allowed, Held.after], by simp [hl, hf]⟩
    · simp [Op.runL, LoadAndDeleteL_blocked r key hf] at h
  | loadOrStore key val =>
    by_cases hf : r.mu = RWMutex.free
    · rw [Op.runL, LoadOrStoreL_free r key val hf] at h
      cases hl : (index r.store key).2
      · simp only [hl, Bool.false_eq_true, if_false, Option.map_some', Option.some.injEq] at h
        subst h
        exact ⟨_, rfl, by simp [disciplined, Ev.allowed, Held.after], hf.symm⟩
      · simp only [hl, if_true, Option.map_some', Option.some.injEq] at h
        subst h
        exact ⟨_, rfl, by simp [disciplined, Ev.allowed, Held.after], hf.symm⟩
    · simp [Op.runL, LoadOrStoreL_blocked r key val hf] at h

/-- The per-key `Load` of the loop does not return: so neither does the loop. -/
theorem rangeLoopL_blocked (f : VisitorL K V σ) (k : K) (ks : List K) (st : σ × Run K V)
    (hw : st.2.mu.writer = true) : rangeLoopL f (k :: ks) st = none := by
  simp [rangeLoopL, LoadL_blocked st.2 k hw]

/-- The per-key `Load` misses: `continue`. -/
theorem rangeLoopL_miss (f : VisitorL K V σ) (k : K) (ks : List K) (st : σ × Run K V)
    (hw : st.2.mu.writer = false) (hok : (index st.2.store k).2 = false) :
    rangeLoopL f (k :: ks) st =
      rangeLoopL f ks
        (st.1, { st.2 with trace := st.2.trace ++ [Ev.rlock, Ev.read k, Ev.runlock] }) := by
  rcases hi : index st.2.store k with ⟨v, ok⟩
  rw [hi] at hok
  simp only at hok
  subst hok
  simp [rangeLoopL, LoadL_unblocked st.2 k hw, hi]

/-- The per-key `Load` hits: the visitor is called, on the map as the `Load`
left it. -/
theorem rangeLoopL_hit (f : VisitorL K V σ) (k : K) (ks : List K) (st : σ × Run K V)
    (hw : st.2.mu.writer = false) (hok : (index st.2.store k).2 = true) :
    rangeLoopL f (k :: ks) st =
      match f k (index st.2.store k).1 (st.1, st.2.toLockedMap) with
      | none => none
      | some y =>
        if y.1 = true then
          rangeLoopL f ks (y.2.1, { y.2.2 with
            trace := st.2.trace ++ [Ev.rlock, Ev.read k, Ev.runlock] ++
              [Ev.visit k (index st.2.store k).1 st.2.mu] })
        else
          some (y.2.1, { y.2.2 with
            trace := st.2.trace ++ [Ev.rlock, Ev.read k, Ev.runlock] ++
              [Ev.visit k (index st.2.store k).1 st.2.mu] }) := by
  rcases hi : index st.2.store k with ⟨v, ok⟩
  rw [hi] at hok
  simp only at hok
  subst hok
  simp only [rangeLoopL, LoadL_unblocked st.2 k hw, hi]
  cases hf : f k v (st.1, st.2.toLockedMap) with
  | none => simp
  | some y =>
    rcases y with ⟨cont, st1⟩
    cases cont <;> simp

/-- Whenever the loop returns, the events it added are disciplined and contain
no visit under a hold. -/
theorem rangeLoopL_trace (f : VisitorL K V σ) (ks : List K) :
    ∀ st st1 : σ × Run K V, rangeLoopL f ks st = some st1 →
      ∃ tr, st1.2.trace = st.2.trace ++ tr ∧ disciplined ⟨0, 0⟩ tr = true ∧
        visitsUnheld ⟨0, 0⟩ tr = true := by
  induction ks with
  | nil =>
    intro st st1 h
    simp only [rangeLoopL, Option.some.injEq] at h
    subst h
    exact ⟨[], by simp, rfl, rfl⟩
  | cons k ks ih =>
    intro st st1 h
    cases hw : st.2.mu.writer with
    | true => simp [rangeLoopL_blocked f k ks st hw] at h
    | false =>
      cases hok : (index st.2.store k).2 with
      | false =>
        rw [rangeLoopL_miss f k ks st hw hok] at h
        obtain ⟨tr, h1, h2, h3⟩ := ih _ _ h
        refine ⟨[Ev.rlock, Ev.read k, Ev.runlock] ++ tr, ?_, ?_, ?_⟩
        · rw [h1]; simp
        · exact disciplined_append _ _ _ (by simp [disciplined, Ev.allowed, Held.after]) h2
        · exact visitsUnheld_append _ _ _ (by simp [disciplined, Ev.allowed, Held.after])
            (by simp [visitsUnheld, Held.after]) h3
      | true =>
        rw [rangeLoopL_hit f k ks st hw hok] at h
        cases hf : f k (index st.2.store k).1 (st.1, st.2.toLockedMap) with
        | none => simp [hf] at h
        | some y =>
          simp only [hf] at h
          have hd : disciplined ⟨0, 0⟩ ([Ev.rlock, Ev.read k, Ev.runlock] ++
              [Ev.visit k (index st.2.store k).1 st.2.mu]) = true := by
            simp [disciplined, Ev.allowed, Held.after]
          have hv : visitsUnheld ⟨0, 0⟩ ([Ev.rlock, Ev.read k, Ev.runlock] ++
              [Ev.visit k (index st.2.store k).1 st.2.mu]) = true := by
            simp [visitsUnheld, Held.after]
          cases hc : y.1 with
          | false =>
            simp only [hc, Bool.false_eq_true, if_false, Option.some.injEq] at h
            subst h
            exact ⟨_, by simp only [List.append_assoc], hd, hv⟩
          | true =>
            simp only [hc, if_true] at h
            obtain ⟨tr, h1, h2, h3⟩ := ih _ _ h
            refine ⟨([Ev.rlock, Ev.read k, Ev.runlock] ++
              [Ev.visit k (index st.2.store k).1 st.2.mu]) ++ tr, ?_, ?_, ?_⟩
            · rw [h1]; simp
            · exact disciplined_append _ _ _ hd h2
            · exact visitsUnheld_append _ _ _ hd hv h3

/-- With the lock free and a visitor that returns, leaving the lock free,
whenever it is called with the lock free, the loop returns with the lock free,
and every call of the visitor was made with the lock free. -/
theorem rangeLoopL_returns (f : VisitorL K V σ)
    (hf : ∀ k v s0 (s : LockedMap K V), s.mu = RWMutex.free →
      ∃ y, f k v (s0, s) = some y ∧ y.2.2.mu = RWMutex.free) (ks : List K) :
    ∀ st : σ × Run K V, st.2.mu = RWMutex.free →
      ∃ st1, rangeLoopL f ks st = some st1 ∧ st1.2.mu = RWMutex.free ∧
        ∃ tr, st1.2.trace = st.2.trace ++ tr ∧
          ∀ k v mu, Ev.visit k v mu ∈ tr → mu = RWMutex.free := by
  induction ks with
  | nil =>
    intro st hst
    exact ⟨st, rfl, hst, [], by simp, by simp⟩
  | cons k ks ih =>
    intro st hst
    have hw : st.2.mu.writer = false := by rw [hst]; rfl
    cases hok : (index st.2.store k).2 with
    | false =>
      rw [rangeLoopL_miss f k ks st hw hok]
      obtain ⟨st1, h1, h2, tr, h3, h4⟩ := ih
        (st.1, { st.2 with trace := st.2.trace ++ [Ev.rlock, Ev.read k, Ev.runlock] }) hst
      refine ⟨st1, h1, h2, [Ev.rlock, Ev.read k, Ev.runlock] ++ tr, ?_, ?_⟩
      · rw [h3]; simp
      · intro k1 v1 mu hm
        simp only [List.cons_append, List.nil_append, List.mem_cons, reduceCtorEq,
          false_or] at hm
        exact h4 k1 v1 mu hm
    | true =>
      rw [rangeLoopL_hit f k ks st hw hok]
      obtain ⟨y, hy, hymu⟩ := hf k (index st.2.store k).1 st.1 st.2.toLockedMap hst
      simp only [hy]
      cases hc : y.1 with
      | false =>
        simp only [Bool.false_eq_true, if_false]
        refine ⟨_, rfl, hymu, [Ev.rlock, Ev.read k, Ev.runlock] ++
          [Ev.visit k (index st.2.store k).1 st.2.mu], List.append_assoc _ _ _, ?_⟩
        intro k1 v1 mu hm
        simp only [List.cons_append, List.nil_append, List.mem_cons, reduceCtorEq,
          false_or, List.mem_singleton, Ev.visit.injEq, List.not_mem_nil, or_false] at hm
        rw [hm.2.2, hst]
      | true =>
        simp only [if_true]
        obtain ⟨st1, h1, h2, tr, h3, h4⟩ := ih
          (y.2.1, { y.2.2 with
            trace := st.2.trace ++ [Ev.rlock, Ev.read k, Ev.runlock] ++
              [Ev.visit k (index st.2.store k).1 st.2.mu] }) hymu
        refine ⟨st1, h1, h2, ([Ev.rlock, Ev.read k, Ev.runlock] ++
              [Ev.visit k (index st.2.store k).1 st.2.mu]) ++ tr, ?_, ?_⟩
        · rw [h3]; simp
        · intro k1 v1 mu hm
          simp only [List.cons_append, List.nil_append, List.mem_cons, reduceCtorEq,
            false_or, Ev.visit.injEq] at hm
          rcases hm with hm | hm
          · rw [hm.2.2, hst]
          · exact h4 k1 v1 mu hm

/-- With the lock free, a call of a single-key method returns and leaves the
lock free. -/
theorem Op.stepL_free (s : LockedMap K V) (op : Op K V) (h : s.mu = RWMutex.free) :
    ∃ s1, Op.stepL s op = some s1 ∧ s1.mu = RWMutex.free := by
  have hr : ({ s with trace := [] } : Run K V).mu = RWMutex.free := h
  cases op with
  | store key val =>
    exact ⟨⟨RWMutex.free, s.store.insert key val⟩,
      by simp [Op.stepL, Op.runL, StoreL_free _ key val hr], rfl⟩
  | load key =>
    have hw : ({ s with trace := [] } : Run K V).mu.writer = false := by rw [hr]; rfl
    exact ⟨_, by rw [Op.stepL, Op.runL, LoadL_unblocked _ key hw]; rfl, h⟩
  | delete key =>
    exact ⟨⟨RWMutex.free, s.store.erase key⟩,
      by simp [Op.stepL, Op.runL, DeleteL_free _ key hr], rfl⟩
  | loadAndDelete key =>
    refine ⟨_, by rw [Op.stepL, Op.runL, LoadAndDeleteL_free _ key hr]; rfl, ?_⟩
    simp only
    split <;> rfl
  | loadOrStore key val =>
    cases hl : (index s.store key).2 with
    | false =>
      exact ⟨_, by rw [Op.stepL, Op.runL, LoadOrStoreL_free _ key val hr]; simp [hl]; rfl, rfl⟩
    | true =>
      exact ⟨_, by rw [Op.stepL, Op.runL, LoadOrStoreL_free _ key val hr]; simp [hl]; rfl, rfl⟩

theorem runOpsL_free (ops : List (Op K V)) :
    ∀ s : LockedMap K V, s.mu = RWMutex.free →
      ∃ s1, runOpsL s ops = some s1 ∧ s1.mu = RWMutex.free := by
  induction ops with
  | nil => intro s h; exact ⟨s, rfl, h⟩
  | cons op ops ih =>
    intro s h
    obtain ⟨s1, h1, h2⟩ := Op.stepL_free s op h
    obtain ⟨s2, h3, h4⟩ := ih s1 h2
    exact ⟨s2, by simp [runOpsL, h1, h3], h4⟩

/-- A visitor that only calls back into the map returns, leaving the lock free,
whenever it is called with the lock free. -/
theorem reentrant_returns (g : K → V → σ → Bool × σ × List (Op K V)) (k : K) (v : V) (s0 : σ)
    (s : LockedMap K V) (h : s.mu = RWMutex.free) :
    ∃ y, reentrant g k v (s0, s) = some y ∧ y.2.2.mu = RWMutex.free := by
  obtain ⟨s1, h1, h2⟩ := runOpsL_free (g k v s0).2.2 s h
  exact ⟨((g k v s0).1, ((g k v s0).2.1, s1)), by simp [reentrant, h1], h2⟩

theorem RangeL_blocked (order : IterOrder K) (f : VisitorL K V σ) (st : σ × Run K V)
    (hw : st.2.mu.writer = true) : RangeL order f st = none := by
  simp [RangeL, Run.RLock, RWMutex.RLock, hw]

/-- The key snapshot is taken between `RLock` and `RUnlock`; the loop starts
with the lock as it was at the call. -/
theorem RangeL_unblocked (order : IterOrder K) (f : VisitorL K V σ) (st : σ × Run K V)
    (hw : st.2.mu.writer = false) :
    RangeL order f st =
      rangeLoopL f (order.run st.2.store.keys)
        (st.1, { st.2 with trace := st.2.trace ++ [Ev.rlock, Ev.iter, Ev.runlock] }) := by
  obtain ⟨mu1, h1, h2, _⟩ := RWMutex.RLock_RUnlock st.2.mu hw
  simp [RangeL, Run.RLock, Run.iter, Run.RUnlock, h1, h2]

/-- With the lock free, the methods with their lock calls return what the
atomic methods return and leave the table the atomic methods leave. -/
theorem methods_refine (r : Run K V) (key : K) (val : V) (h : r.mu = RWMutex.free) :
    (StoreL r key val).map (fun r1 => r1.table) = some (Store r.table key val) ∧
      (LoadL r key).map (fun x => (x.1, x.2.table)) = some (Load r.table key) ∧
      (DeleteL r key).map (fun r1 => r1.table) = some (Delete r.table key) ∧
      (LoadAndDeleteL r key).map (fun x => (x.1, x.2.table)) =
        some (LoadAndDelete r.table key) ∧
      (LoadOrStoreL r key val).map (fun x => (x.1, x.2.table)) =
        some (LoadOrStore r.table key val) := by
  have hw : r.mu.writer = false := by rw [h]; rfl
  refine ⟨?_, ?_, ?_, ?_, ?_⟩
  · rw [StoreL_free r key val h]; rfl
  · rw [LoadL_unblocked r key hw]; rfl
  · rw [DeleteL_free r key h]; rfl
  · rw [LoadAndDeleteL_free r key h]
    cases hl : (index r.store key).2 <;>
      simp [LoadAndDelete, LockedMap.table, hl] <;> rw [← hl]
  · rw [LoadOrStoreL_free r key val h]
    cases hl : (index r.store key).2
    · simp [LoadOrStore, LockedMap.table, hl]
    · simp only [LoadOrStore, LockedMap.table, hl, if_true, Option.map_some']
      rw [← hl]

omit [DecidableEq K] [Inhabited V] in
theorem visitsOf_append (a b : List (Ev K V)) : visitsOf (a ++ b) = visitsOf a ++ visitsOf b := by
  induction a with
  | nil => rfl
  | cons e a ih => cases e <;> simp [visitsOf, ih]

/-- With the lock free, the loop with its lock calls, given a visitor of the
atomic model, returns the state the atomic loop returns, and the visits in
its trace are the invocations the atomic loop logs. -/
theorem rangeLoopL_refines (f : Visitor K V σ) (ks : List K) :
    ∀ st : σ × Run K V, st.2.mu = RWMutex.free →
      ∃ st1 tr, rangeLoopL (liftVisitor f) ks st = some st1 ∧ st1.2.mu = RWMutex.free ∧
        (st1.1, st1.2.table) = (rangeLoop f ks (st.1, st.2.table)).2 ∧
        st1.2.trace = st.2.trace ++ tr ∧
        visitsOf tr = (rangeLoop f ks (st.1, st.2.table)).1.map (fun e => (e.1, e.2.1)) := by
  induction ks with
  | nil =>
    intro st hst
    exact ⟨st, [], rfl, hst, rfl, by simp, rfl⟩
  | cons k ks ih =>
    intro st hst
    have hw : st.2.mu.writer = false := by rw [hst]; rfl
    cases hok : (index st.2.store k).2 with
    | false =>
      rw [rangeLoopL_miss _ k ks st hw hok,
        rangeLoop_miss f k ks (st.1, st.2.table) hok]
      obtain ⟨st1, tr, h1, h2, h3, h4, h5⟩ := ih
        (st.1, { st.2 with trace := st.2.trace ++ [Ev.rlock, Ev.read k, Ev.runlock] }) hst
      refine ⟨st1, [Ev.rlock, Ev.read k, Ev.runlock] ++ tr, h1, h2, h3, ?_, ?_⟩
      · rw [h4]; simp
      · rw [visitsOf_append, h5]; rfl
    | true =>
      rw [rangeLoopL_hit _ k ks st hw hok]
      simp only [liftVisitor]
      cases hc : (f k (index st.2.store k).1 (st.1, st.2.table)).1 with
      | false =>
        rw [rangeLoop_stop f k ks (st.1, st.2.table) hok hc]
        refine ⟨((f k (index st.2.store k).1 (st.1, st.2.table)).2.1,
            { mu := st.2.mu, store := (f k (index st.2.store k).1 (st.1, st.2.table)).2.2.store,
              trace := st.2.trace ++ [Ev.rlock, Ev.read k, Ev.runlock] ++
                [Ev.visit k (index st.2.store k).1 st.2.mu] }),
          [Ev.rlock, Ev.read k, Ev.runlock] ++
            [Ev.visit k (index st.2.store k).1 st.2.mu], ?_, hst, rfl, ?_, ?_⟩
        · simp only [Bool.false_eq_true, if_false]
        · exact List.append_assoc _ _ _
        · simp [visitsOf, LockedMap.table]
      | true =>
        rw [rangeLoop_go f k ks (st.1, st.2.table) hok hc]
        simp only [if_true]
        obtain ⟨st1, tr, h1, h2, h3, h4, h5⟩ := ih
          ((f k (index st.2.store k).1 (st.1, st.2.table)).2.1,
            { mu := st.2.mu, store := (f k (index st.2.store k).1 (st.1, st.2.table)).2.2.store,
              trace := st.2.trace ++ [Ev.rlock, Ev.read k, Ev.runlock] ++
                [Ev.visit k (index st.2.store k).1 st.2.mu] }) hst
        refine ⟨st1, ([Ev.rlock, Ev.read k, Ev.runlock] ++
          [Ev.visit k (index st.2.store k).1 st.2.mu]) ++ tr, h1, h2, h3, ?_, ?_⟩
        · rw [h4]; simp
        · rw [visitsOf_append, h5]; rfl

/-- With the lock free, `Range` with its lock calls, given a visitor of the
atomic model, returns the state the atomic `Range` returns, and the visits in
its trace are the invocations the atomic `Range` logs. -/
theorem RangeL_refines (order : IterOrder K) (f : Visitor K V σ) (st : σ × Run K V)
    (hst : st.2.mu = RWMutex.free) :
    ∃ st1 tr, RangeL order (liftVisitor f) st = some st1 ∧ st1.2.mu = RWMutex.free ∧
      (st1.1, st1.2.table) = (Range order f (st.1, st.2.table)).2 ∧
      st1.2.trace = st.2.trace ++ tr ∧
      visitsOf tr = (Range order f (st.1, st.2.table)).1.map (fun e => (e.1, e.2.1)) := by
  have hw : st.2.mu.writer = false := by rw [hst]; rfl
  rw [RangeL_unblocked order _ st hw]
  obtain ⟨st1, tr, h1, h2, h3, h4, h5⟩ := rangeLoopL_refines f (order.run st.2.store.keys)
    (st.1, { st.2 with trace := st.2.trace ++ [Ev.rlock, Ev.iter, Ev.runlock] }) hst
  refine ⟨st1, [Ev.rlock, Ev.iter, Ev.runlock] ++ tr, h1, h2, h3, ?_, ?_⟩
  · rw [h4]; simp
  · rw [visitsOf_append, h5]; rfl

end LockLemmas

/-! ## The lock discipline -/

section LockContracts

variable {K : Type u} {V : Type v} {σ : Type w} [DecidableEq K] [Inhabited V]

/-- C15: over the runs that track the lock. Whenever a single-key method or
`Range` returns, the events it added to the trace are disciplined: the table is
read only under a hold of the lock, written only under an exclusive hold, and
nothing is held at the return; a single-key method leaves the lock as it found
it. With the lock free every single-key method returns, on either return path
of `LoadAndDelete` and `LoadOrStore`, with the trace shown: `Load` and the key
snapshot of `Range` under the shared lock, the four writers under the exclusive
lock. -/
theorem lock_discipline (r : Run K V) (key : K) (val : V) :
    (∀ op r1, Op.runL r op = some r1 →
      ∃ tr, r1.trace = r.trace ++ tr ∧ disciplined ⟨0, 0⟩ tr = true ∧ r1.mu = r.mu) ∧
      (∀ (order : IterOrder K) (f : VisitorL K V σ) (s0 : σ) (st1 : σ × Run K V),
        RangeL order f (s0, r) = some st1 →
        ∃ tr, st1.2.trace = r.trace ++ ([Ev.rlock, Ev.iter, Ev.runlock] ++ tr) ∧
          disciplined ⟨0, 0⟩ ([Ev.rlock, Ev.iter, Ev.runlock] ++ tr) = true) ∧
      (r.mu = RWMutex.free →
        (StoreL r key val).map (fun r1 => r1.trace) =
          some (r.trace ++ [Ev.lock, Ev.write key val, Ev.unlock]) ∧
        (LoadL r key).map (fun x => x.2.trace) =
          some (r.trace ++ [Ev.rlock, Ev.read key, Ev.runlock]) ∧
        (DeleteL r key).map (fun r1 => r1.trace) =
          some (r.trace ++ [Ev.lock, Ev.del key, Ev.unlock]) ∧
        (LoadAndDeleteL r key).map (fun x => x.2.trace) =
          some (r.trace ++
            if key ∈ r.store then [Ev.lock, Ev.read key, Ev.del key, Ev.unlock]
            else [Ev.lock, Ev.read key, Ev.unlock]) ∧
        (LoadOrStoreL r key val).map (fun x => x.2.trace) =
          some (r.trace ++
            if key ∈ r.store then [Ev.lock, Ev.read key, Ev.unlock]
            else [Ev.lock, Ev.read key, Ev.write key val, Ev.unlock])) := by
  refine ⟨fun op r1 h => Op.runL_disciplined r r1 op h, ?_, ?_⟩
  · intro order f s0 st1 h
    cases hw : r.mu.writer with
    | true => simp [RangeL_blocked order f (s0, r) hw] at h
    | false =>
      rw [RangeL_unblocked order f (s0, r) hw] at h
      obtain ⟨tr, h1, h2, _⟩ := rangeLoopL_trace f _ _ _ h
      refine ⟨tr, ?_, ?_⟩
      · rw [h1]; simp
      · exact disciplined_append _ _ _ (by simp [disciplined, Ev.allowed, Held.after]) h2
  · intro h
    have hw : r.mu.writer = false := by rw [h]; rfl
    refine ⟨?_, ?_, ?_, ?_, ?_⟩
    · rw [StoreL_free r key val h]; rfl
    · rw [LoadL_unblocked r key hw]; rfl
    · rw [DeleteL_free r key h]; rfl
    · rw [LoadAndDeleteL_free r key h]
      by_cases hk : key ∈ r.store
      · simp [(index_snd_eq_true_iff r.store key).mpr hk, hk]
      · have : (index r.store key).2 = false := by rw [index_of_not_mem hk]
        simp [this, hk]
    · rw [LoadOrStoreL_free r key val h]
      by_cases hk : key ∈ r.store
      · simp [(index_snd_eq_true_iff r.store key).mpr hk, hk]
      · have : (index r.store key).2 = false := by rw [index_of_not_mem hk]
        simp [this, hk]

/-- C16: whenever `Range` returns, its trace has no call of the visitor under a
hold made by `Range`, the holds for the key snapshot and for each per-key `Load`
being released before. With the lock free at the call and a visitor that
returns, leaving the lock free, whenever it is called with the lock free,
`Range` returns and every call of the visitor was made with the lock free.
Such is every visitor that only makes calls of single-key methods: each of
these calls returns when the lock is free, and so does `Range`. -/
theorem range_visits_unlocked (order : IterOrder K) (f : VisitorL K V σ)
    (st : σ × Run K V) :
    (∀ st1, RangeL order f st = some st1 →
      ∃ tr, st1.2.trace = st.2.trace ++ tr ∧ visitsUnheld ⟨0, 0⟩ tr = true) ∧
      (st.2.mu = RWMutex.free →
        (∀ k v s0 (s : LockedMap K V), s.mu = RWMutex.free →
          ∃ y, f k v (s0, s) = some y ∧ y.2.2.mu = RWMutex.free) →
        ∃ st1, RangeL order f st = some st1 ∧ st1.2.mu = RWMutex.free ∧
          ∃ tr, st1.2.trace = st.2.trace ++ tr ∧
            ∀ k v mu, Ev.visit k v mu ∈ tr → mu = RWMutex.free) ∧
      (∀ (s : LockedMap K V) (op : Op K V), s.mu = RWMutex.free →
        ∃ s1, Op.stepL s op = some s1 ∧ s1.mu = RWMutex.free) ∧
      (st.2.mu = RWMutex.free → ∀ g : K → V → σ → Bool × σ × List (Op K V),
        ∃ st1, RangeL order (reentrant g) st = some st1 ∧ st1.2.mu = RWMutex.free) := by
  have h2 : ∀ f1 : VisitorL K V σ, st.2.mu = RWMutex.free →
      (∀ k v s0 (s : LockedMap K V), s.mu = RWMutex.free →
        ∃ y, f1 k v (s0, s) = some y ∧ y.2.2.mu = RWMutex.free) →
      ∃ st1, RangeL order f1 st = some st1 ∧ st1.2.mu = RWMutex.free ∧
        ∃ tr, st1.2.trace = st.2.trace ++ tr ∧
          ∀ k v mu, Ev.visit k v mu ∈ tr → mu = RWMutex.free := by
    intro f1 hfree hf
    have hw : st.2.mu.writer = false := by rw [hfree]; rfl
    rw [RangeL_unblocked order f1 st hw]
    obtain ⟨st1, h1, h2, tr, h3, h4⟩ := rangeLoopL_returns f1 hf (order.run st.2.store.keys)
      (st.1, { st.2 with trace := st.2.trace ++ [Ev.rlock, Ev.iter, Ev.runlock] }) hfree
    refine ⟨st1, h1, h2, [Ev.rlock, Ev.iter, Ev.runlock] ++ tr, ?_, ?_⟩
    · rw [h3]; simp
    · intro k v mu hm
      simp only [List.cons_append, List.nil_append, List.mem_cons, reduceCtorEq,
        false_or] at hm
      exact h4 k v mu hm
  refine ⟨?_, h2 f, fun s op h => Op.stepL_free s op h, ?_⟩
  · intro st1 h
    cases hw : st.2.mu.writer with
    | true => simp [RangeL_blocked order f st hw] at h
    | false =>
      rw [RangeL_unblocked order f st hw] at h
      obtain ⟨tr, h1, h2, h3⟩ := rangeLoopL_trace f _ _ _ h
      refine ⟨[Ev.rlock, Ev.iter, Ev.runlock] ++ tr, ?_, ?_⟩
      · rw [h1]; simp
      · exact visitsUnheld_append _ _ _ (by simp [disciplined, Ev.allowed, Held.after])
          (by simp [visitsUnheld, Held.after]) h3
  · intro hfree g
    obtain ⟨st1, h1, h2, _⟩ := h2 (reentrant g) hfree (fun k v s0 s hs => reentrant_returns g k v s0 s hs)
    exact ⟨st1, h1, h2⟩

end LockContracts

/-! ## Concurrent callers -/

section InterleavingLemmas

variable {K : Type u} {V : Type v} [DecidableEq K] [Inhabited V]

theorem RWMutex.Lock_eq_some (mu mu1 : RWMutex) :
    mu.Lock = some mu1 ↔ mu = RWMutex.free ∧ mu1 = { writer := true, readers := 0 } := by
  rcases mu with ⟨w, n⟩
  cases w <;> rcases n with _ | n <;> simp [RWMutex.Lock, RWMutex.free, eq_comm]

theorem RWMutex.Unlock_eq_some (mu mu1 : RWMutex) :
    mu.Unlock = some mu1 ↔ mu.writer = true ∧ mu1 = { writer := false, readers := mu.readers } := by
  rcases mu with ⟨w, n⟩
  cases w <;> simp [RWMutex.Unlock, eq_comm]

theorem RWMutex.RLock_eq_some (mu mu1 : RWMutex) :
    mu.RLock = some mu1 ↔
      mu.writer = false ∧ mu1 = { writer := false, readers := mu.readers + 1 } := by
  rcases mu with ⟨w, n⟩
  cases w <;> simp [RWMutex.RLock, eq_comm]

theorem RWMutex.RUnlock_eq_some (mu mu1 : RWMutex) :
    mu.RUnlock = some mu1 ↔
      0 < mu.readers ∧ mu1 = { writer := mu.writer, readers := mu.readers - 1 } := by
  rcases mu with ⟨w, n⟩
  rcases n with _ | n <;> simp [RWMutex.RUnlock, eq_comm]

omit [DecidableEq K] [Inhabited V] in
theorem Thread.ret_holdsW (t : Thread K V) (op : Op K V) (rest : List (Op K V)) (res : Res V) :
    (t.ret op rest res).holdsW = false := by
  rcases rest with _ | ⟨o, r⟩
  · rfl
  · cases o <;> simp [Thread.ret, Thread.holdsW]

omit [DecidableEq K] [Inhabited V] in
theorem Thread.ret_holdsR (t : Thread K V) (op : Op K V) (rest : List (Op K V)) (res : Res V) :
    (t.ret op rest res).holdsR = false := by
  rcases rest with _ | ⟨o, r⟩
  · rfl
  · cases o <;> simp [Thread.ret, Thread.holdsR]

omit [DecidableEq K] [Inhabited V] in
theorem Thread.ret_pending (t : Thread K V) (op : Op K V) (rest : List (Op K V)) (res : Res V) :
    (t.ret op rest res).pending = [] := by
  rcases rest with _ | ⟨o, r⟩
  · rfl
  · cases o <;> simp [Thread.ret, Thread.pending]

theorem Thread.ret_localsOK (t : Thread K V) (op : Op K V) (rest : List (Op K V)) (res : Res V)
    (s : LockedMap K V) : (t.ret op rest res).localsOK s := by
  rcases rest with _ | ⟨o, r⟩
  · simp [Thread.ret, Thread.localsOK]
  · cases o <;> simp [Thread.ret, Thread.localsOK]

/-- What each step of a method body does to the thread, the lock and the table. -/
theorem Thread.step_facts (t : Thread K V) (s : LockedMap K V) (t1 : Thread K V)
    (s1 : LockedMap K V) (cm : Option (Op K V × Res V)) (h : t.step s = some (t1, s1, cm)) :
    StepFacts t s t1 s1 cm := by
  rcases t with ⟨calls, pc, val, ok, done⟩
  rcases s with ⟨mu, store⟩
  cases calls with
  | nil => simp [Thread.step] at h
  | cons op rest =>
    cases op with
    | store key x =>
      rcases pc with _ | _ | _ | n
      · simp only [Thread.step, Option.map_eq_some', RWMutex.Lock_eq_some, Prod.mk.injEq] at h
        obtain ⟨mu1, ⟨hfree, rfl⟩, rfl, rfl, rfl⟩ := h
        subst hfree
        constructor <;>
          simp [Thread.history, Thread.pending, lockEffect, Thread.holdsW, Thread.holdsR,
            Thread.localsOK, RWMutex.free]
      · simp only [Thread.step, Option.some.injEq, Prod.mk.injEq] at h
        obtain ⟨rfl, rfl, rfl⟩ := h
        constructor <;>
          simp [Thread.history, Thread.pending, lockEffect, Thread.holdsW, Thread.holdsR,
            Thread.localsOK, Op.call, Store, LockedMap.table]
      · simp only [Thread.step, Option.map_eq_some', RWMutex.Unlock_eq_some, Prod.mk.injEq] at h
        obtain ⟨mu1, ⟨hw, rfl⟩, rfl, rfl, rfl⟩ := h
        constructor <;>
          (try simp only [Thread.history, Thread.ret_pending, Thread.ret_holdsW,
            Thread.ret_holdsR, Thread.ret_localsOK, lockEffect]) <;>
          simp [Thread.pending, Thread.holdsW, Thread.holdsR, hw, Thread.ret]
      · simp [Thread.step] at h
    | load key =>
      rcases pc with _ | _ | _ | n
      · simp only [Thread.step, Option.map_eq_some', RWMutex.RLock_eq_some, Prod.mk.injEq] at h
        obtain ⟨mu1, ⟨hfree, rfl⟩, rfl, rfl, rfl⟩ := h
        constructor <;>
          simp [Thread.history, Thread.pending, lockEffect, Thread.holdsW, Thread.holdsR,
            Thread.localsOK, hfree]
      · simp only [Thread.step, Option.some.injEq, Prod.mk.injEq] at h
        obtain ⟨rfl, rfl, rfl⟩ := h
        constructor <;>
          simp [Thread.history, Thread.pending, lockEffect, Thread.holdsW, Thread.holdsR,
            Thread.localsOK, Op.call, Load, LockedMap.table]
      · simp only [Thread.step, Option.map_eq_some', RWMutex.RUnlock_eq_some, Prod.mk.injEq] at h
        obtain ⟨mu1, ⟨hw, rfl⟩, rfl, rfl, rfl⟩ := h
        constructor <;>
          (try simp only [Thread.history, Thread.ret_pending, Thread.ret_holdsW,
            Thread.ret_holdsR, Thread.ret_localsOK, lockEffect]) <;>
          simp [Thread.pending, Thread.holdsW, Thread.holdsR, hw, Thread.ret]
      · simp [Thread.step] at h
    | delete key =>
      rcases pc with _ | _ | _ | n
      · simp only [Thread.step, Option.map_eq_some', RWMutex.Lock_eq_some, Prod.mk.injEq] at h
        obtain ⟨mu1, ⟨hfree, rfl⟩, rfl, rfl, rfl⟩ := h
        subst hfree
        constructor <;>
          simp [Thread.history, Thread.pending, lockEffect, Thread.holdsW, Thread.holdsR,
            Thread.localsOK, RWMutex.free]
      · simp only [Thread.step, Option.some.injEq, Prod.mk.injEq] at h
        obtain ⟨rfl, rfl, rfl⟩ := h
        constructor <;>
          simp [Thread.history, Thread.pending, lockEffect, Thread.holdsW, Thread.holdsR,
            Thread.localsOK, Op.call, Delete, LockedMap.table]
      · simp only [Thread.step, Option.map_eq_some', RWMutex.Unlock_eq_some, Prod.mk.injEq] at h
        obtain ⟨mu1, ⟨hw, rfl⟩, rfl, rfl, rfl⟩ := h
        constructor <;>
          (try simp only [Thread.history, Thread.ret_pending, Thread.ret_holdsW,
            Thread.ret_holdsR, Thread.ret_localsOK, lockEffect]) <;>
          simp [Thread.pending, Thread.holdsW, Thread.holdsR, hw, Thread.ret]
      · simp [Thread.step] at h
    | loadAndDelete key =>
      rcases pc with _ | _ | _ | _ | n
      · simp only [Thread.step, Option.map_eq_some', RWMutex.Lock_eq_some, Prod.mk.injEq] at h
        obtain ⟨mu1, ⟨hfree, rfl⟩, rfl, rfl, rfl⟩ := h
        subst hfree
        constructor <;>
          simp [Thread.history, Thread.pending, lockEffect, Thread.holdsW, Thread.holdsR,
            Thread.localsOK, RWMutex.free]
      · simp only [Thread.step, Option.some.injEq, Prod.mk.injEq] at h
        obtain ⟨rfl, rfl, rfl⟩ := h
        constructor <;>
          simp [Thread.history, Thread.pending, lockEffect, Thread.holdsW, Thread.holdsR,
            Thread.localsOK]
      · simp only [Thread.step, Option.some.injEq, Prod.mk.injEq] at h
        obtain ⟨rfl, rfl, rfl⟩ := h
        cases ok <;> constructor <;>
          simp [Thread.history, Thread.pending, lockEffect, Thread.holdsW, Thread.holdsR,
            Thread.localsOK, Op.call, LoadAndDelete, LockedMap.table] <;>
          intro hl <;> simp [← hl]
      · simp only [Thread.step, Option.map_eq_some', RWMutex.Unlock_eq_some, Prod.mk.injEq] at h
        obtain ⟨mu1, ⟨hw, rfl⟩, rfl, rfl, rfl⟩ := h
        constructor <;>
          (try simp only [Thread.history, Thread.ret_pending, Thread.ret_holdsW,
            Thread.ret_holdsR, Thread.ret_localsOK, lockEffect]) <;>
          simp [Thread.pending, Thread.holdsW, Thread.holdsR, hw, Thread.ret]
      · simp [Thread.step] at h
    | loadOrStore key x =>
      rcases pc with _ | _ | _ | _ | n
      · simp only [Thread.step, Option.map_eq_some', RWMutex.Lock_eq_some, Prod.mk.injEq] at h
        obtain ⟨mu1, ⟨hfree, rfl⟩, rfl, rfl, rfl⟩ := h
        subst hfree
        constructor <;>
          simp [Thread.history, Thread.pending, lockEffect, Thread.holdsW, Thread.holdsR,
            Thread.localsOK, RWMutex.free]
      · simp only [Thread.step, Option.some.injEq, Prod.mk.injEq] at h
        obtain ⟨rfl, rfl, rfl⟩ := h
        constructor <;>
          simp [Thread.history, Thread.pending, lockEffect, Thread.holdsW, Thread.holdsR,
            Thread.localsOK]
      · cases ok
        · simp only [Thread.step, Bool.false_eq_true, if_false, Option.some.injEq,
            Prod.mk.injEq] at h
          obtain ⟨rfl, rfl, rfl⟩ := h
          constructor <;>
            simp [Thread.history, Thread.pending, lockEffect, Thread.holdsW, Thread.holdsR,
              Thread.localsOK, Op.call, LoadOrStore, LockedMap.table]
          intro hl
          simp [← hl]
        · simp only [Thread.step, if_true, Option.some.injEq, Prod.mk.injEq] at h
          obtain ⟨rfl, rfl, rfl⟩ := h
          constructor <;>
            simp [Thread.history, Thread.pending, lockEffect, Thread.holdsW, Thread.holdsR,
              Thread.localsOK, Op.call, LoadOrStore, LockedMap.table]
          intro hl
          simp [← hl]
      · simp only [Thread.step, Option.map_eq_some', RWMutex.Unlock_eq_some, Prod.mk.injEq] at h
        obtain ⟨mu1, ⟨hw, rfl⟩, rfl, rfl, rfl⟩ := h
        constructor <;>
          (try simp only [Thread.history, Thread.ret_pending, Thread.ret_holdsW,
            Thread.ret_holdsR, Thread.ret_localsOK, lockEffect]) <;>
          simp [Thread.pending, Thread.holdsW, Thread.holdsR, hw, Thread.ret]
      · simp [Thread.step] at h
omit [DecidableEq K] [Inhabited V] in
theorem countP_set_add {α : Type u} (p : α → Bool) (x : α) :
    ∀ (l : List α) (i : Nat) (a : α), l[i]? = some a →
      (l.set i x).countP p + (if p a = true then 1 else 0) =
        l.countP p + (if p x = true then 1 else 0) := by
  intro l
  induction l with
  | nil => intro i a h; simp at h
  | cons b l ih =>
    intro i a h
    cases i with
    | zero =>
      simp only [List.getElem?_cons_zero, Option.some.injEq] at h
      subst h
      simp only [List.set_cons_zero, List.countP_cons]
      omega
    | succ i =>
      simp only [List.getElem?_cons_succ] at h
      have := ih i a h
      simp only [List.set_cons_succ, List.countP_cons]
      omega

omit [DecidableEq K] [Inhabited V] in
theorem countP_zero_get {α : Type u} (p : α → Bool) (l : List α) (i : Nat) (a : α)
    (h0 : l.countP p = 0) (h : l[i]? = some a) : p a = false := by
  have hmem : a ∈ l := List.getElem?_mem h
  have := (List.countP_eq_zero.mp h0) a hmem
  simpa using this

omit [DecidableEq K] [Inhabited V] in
theorem countP_one_unique {α : Type u} (p : α → Bool) :
    ∀ (l : List α) (i j : Nat) (a b : α), l.countP p = 1 → l[i]? = some a → l[j]? = some b →
      p a = true → p b = true → i = j := by
  intro l
  induction l with
  | nil => intro i j a b _ h; simp at h
  | cons c l ih =>
    intro i j a b h1 hi hj ha hb
    rw [List.countP_cons] at h1
    cases i with
    | zero =>
      cases j with
      | zero => rfl
      | succ j =>
        simp only [List.getElem?_cons_zero, Option.some.injEq] at hi
        simp only [List.getElem?_cons_succ] at hj
        subst hi
        rw [if_pos ha] at h1
        have h0 : l.countP p = 0 := by omega
        rw [countP_zero_get p l j b h0 hj] at hb
        exact absurd hb (by simp)
    | succ i =>
      simp only [List.getElem?_cons_succ] at hi
      cases j with
      | zero =>
        simp only [List.getElem?_cons_zero, Option.some.injEq] at hj
        subst hj
        rw [if_pos hb] at h1
        have h0 : l.countP p = 0 := by omega
        rw [countP_zero_get p l i a h0 hi] at ha
        exact absurd ha (by simp)
      | succ j =>
        simp only [List.getElem?_cons_succ] at hj
        by_cases hc : p c = true
        · rw [if_pos hc] at h1
          have h0 : l.countP p = 0 := by omega
          rw [countP_zero_get p l i a h0 hi] at ha
          exact absurd ha (by simp)
        · rw [if_neg hc] at h1
          rw [ih i j a b h1 hi hj ha hb]

theorem seqRun_append (a b : List (Op K V)) :
    ∀ m : MutexMap K V, seqRun m (a ++ b) =
      ((seqRun m a).1 ++ (seqRun (seqRun m a).2 b).1, (seqRun (seqRun m a).2 b).2) := by
  induction a with
  | nil => intro m; simp [seqRun]
  | cons op a ih => intro m; simp [seqRun, ih]

/-- A thread that holds no exclusive lock is not between a read and the delete
or store that follows it. -/
theorem Thread.localsOK_of_not_holdsW (t : Thread K V) (s : LockedMap K V)
    (h : t.holdsW = false) : t.localsOK s := by
  rcases t with ⟨calls, pc, val, ok, done⟩
  rcases calls with _ | ⟨op, rest⟩
  · simp [Thread.localsOK]
  · cases op <;> simp [Thread.localsOK, Thread.holdsW] at h ⊢ <;> omega

theorem Thread.localsOK_of_store_eq (t : Thread K V) (s s1 : LockedMap K V)
    (h : s1.store = s.store) (hl : t.localsOK s) : t.localsOK s1 := by
  rcases t with ⟨calls, pc, val, ok, done⟩
  rcases calls with _ | ⟨op, rest⟩
  · simp [Thread.localsOK]
  · cases op <;> simp [Thread.localsOK, h] at hl ⊢ <;> exact hl

omit [DecidableEq K] [Inhabited V] in
theorem Thread.holdsW_of_midCall (t : Thread K V) (h : t.midCall = true) : t.holdsW = true := by
  rcases t with ⟨calls, pc, val, ok, done⟩
  rcases calls with _ | ⟨op, rest⟩
  · simp [Thread.midCall] at h
  · cases op <;> simp [Thread.midCall, Thread.holdsW] at h ⊢ <;> omega

theorem Config.step_absent (c : Config K V) (i : Nat) (h : c.threads[i]? = none) :
    c.step i = c := by
  simp [Config.step, h]

theorem Config.step_blocked (c : Config K V) (i : Nat) (t : Thread K V)
    (h : c.threads[i]? = some t) (hs : t.step c.s = none) : c.step i = c := by
  simp [Config.step, h, hs]

theorem Config.step_some (c : Config K V) (i : Nat) (t t1 : Thread K V) (s1 : LockedMap K V)
    (cm : Option (Op K V × Res V)) (h : c.threads[i]? = some t)
    (hs : t.step c.s = some (t1, s1, cm)) :
    c.step i =
      { s := s1, threads := c.threads.set i t1,
        lin := c.lin ++ cm.toList.map fun x => (i, x.1, x.2) } := by
  cases cm with
  | none => simp [Config.step, h, hs]
  | some x => simp [Config.step, h, hs]

/-- A step only adds, at the end, to the order of taking effect. -/
theorem Config.lin_step (c : Config K V) (i : Nat) : ∃ more, (c.step i).lin = c.lin ++ more := by
  cases h : c.threads[i]? with
  | none => exact ⟨[], by simp [Config.step_absent c i h]⟩
  | some t =>
    cases hs : t.step c.s with
    | none => exact ⟨[], by simp [Config.step_blocked c i t h hs]⟩
    | some r =>
      obtain ⟨t1, s1, cm⟩ := r
      exact ⟨_, by rw [Config.step_some c i t t1 s1 cm h hs]⟩

theorem Config.lin_exec (sched : List Nat) :
    ∀ c : Config K V, ∃ more, (c.exec sched).lin = c.lin ++ more := by
  induction sched with
  | nil => intro c; exact ⟨[], by simp [Config.exec]⟩
  | cons i sched ih =>
    intro c
    obtain ⟨m1, h1⟩ := Config.lin_step c i
    obtain ⟨m2, h2⟩ := ih (c.step i)
    refine ⟨m1 ++ m2, ?_⟩
    have : c.exec (i :: sched) = (c.step i).exec sched := rfl
    rw [this, h2, h1, List.append_assoc]

omit [DecidableEq K] [Inhabited V] in
/-- While a thread holds the lock exclusively, the lock says so and no other
thread holds it in either mode. -/
theorem Config.lockInv_writer (c : Config K V) (h : c.lockInv) (j : Nat) (tj : Thread K V)
    (hj : c.threads[j]? = some tj) (hw : tj.holdsW = true) :
    c.s.mu = { writer := true, readers := 0 } ∧ c.threads.countP Thread.holdsW = 1 ∧
      c.threads.countP Thread.holdsR = 0 := by
  rcases h with ⟨_, h0, _⟩ | h
  · rw [countP_zero_get _ _ j tj h0 hj] at hw
    exact absurd hw (by simp)
  · exact h

/-- While a thread holds the lock exclusively, no other thread can take a step. -/
theorem Config.blocked_of_holdsW (c : Config K V) (h : c.lockInv) (i j : Nat)
    (ti tj : Thread K V) (hne : i ≠ j) (hi : c.threads[i]? = some ti)
    (hj : c.threads[j]? = some tj) (hw : tj.holdsW = true) : ti.step c.s = none := by
  obtain ⟨hmu, hW, hR⟩ := Config.lockInv_writer c h j tj hj hw
  cases hstep : ti.step c.s with
  | none => rfl
  | some r =>
    exfalso
    obtain ⟨t1, s1, cm⟩ := r
    have facts := Thread.step_facts ti c.s t1 s1 cm hstep
    have hnw : ti.holdsW = false := by
      cases hwi : ti.holdsW with
      | false => rfl
      | true => exact absurd (countP_one_unique _ _ i j ti tj hW hi hj hwi hw) hne
    have hnr : ti.holdsR = false := countP_zero_get _ _ i ti hR hi
    rcases facts.lock with ⟨hh, _⟩ | ⟨_, _, _, _, hfree, _⟩ | ⟨_, _, _, _, hwr, _⟩ |
      ⟨hwi, _⟩ | ⟨_, hri, _⟩
    · rcases hh with hh | hh
      · rw [hnw] at hh; exact absurd hh (by simp)
      · rw [hnr] at hh; exact absurd hh (by simp)
    · rw [hmu] at hfree; simp [RWMutex.free] at hfree
    · rw [hmu] at hwr; simp at hwr
    · rw [hnw] at hwi; exact absurd hwi (by simp)
    · rw [hnr] at hri; exact absurd hri (by simp)

omit [DecidableEq K] [Inhabited V] in
/-- The lock keeps telling who holds it across a step with a known effect. -/
theorem Config.lockInv_set (c : Config K V) (h : c.lockInv) (i : Nat) (t t1 : Thread K V)
    (s1 : LockedMap K V) (lin1 : List (Nat × Op K V × Res V)) (hi : c.threads[i]? = some t)
    (he : lockEffect t c.s t1 s1) :
    Config.lockInv { s := s1, threads := c.threads.set i t1, lin := lin1 } := by
  have hW := countP_set_add Thread.holdsW t1 c.threads i t hi
  have hR := countP_set_add Thread.holdsR t1 c.threads i t hi
  simp only [Config.lockInv]
  rcases he with ⟨_, hw1, hr1, hmu⟩ | ⟨hw, hr, hw1, hr1, hfree, hmu⟩ |
    ⟨hw, hr, hw1, hr1, hwr, hmu⟩ | ⟨hw, hr, hw1, hr1, hwr, hmu⟩ | ⟨hw, hr, hw1, hr1, hpos, hmu⟩
  · rw [hw1] at hW
    rw [hr1] at hR
    have hW1 : (c.threads.set i t1).countP Thread.holdsW = c.threads.countP Thread.holdsW := by
      omega
    have hR1 : (c.threads.set i t1).countP Thread.holdsR = c.threads.countP Thread.holdsR := by
      omega
    rw [hW1, hR1, hmu]
    exact h
  · simp only [hw, hw1, Bool.false_eq_true, if_false, if_true] at hW
    simp only [hr, hr1, Bool.false_eq_true, if_false] at hR
    rcases h with ⟨_, h0, hrd⟩ | ⟨h1, _, _⟩
    · rw [hfree] at hrd
      simp only [RWMutex.free] at hrd
      right
      exact ⟨hmu, by omega, by omega⟩
    · rw [hfree] at h1; simp [RWMutex.free] at h1
  · simp only [hw, hw1, Bool.false_eq_true, if_false] at hW
    simp only [hr, hr1, Bool.false_eq_true, if_false, if_true] at hR
    rcases h with ⟨_, h0, hrd⟩ | ⟨h1, _, _⟩
    · left
      rw [hmu]
      exact ⟨rfl, by omega, by simp only; omega⟩
    · rw [h1] at hwr; simp at hwr
  · simp only [hw, hw1, Bool.false_eq_true, if_false, if_true] at hW
    simp only [hr, hr1, Bool.false_eq_true, if_false] at hR
    obtain ⟨h1, h2, h3⟩ := Config.lockInv_writer c h i t hi hw
    left
    rw [hmu, h1]
    exact ⟨rfl, by omega, by simp only; omega⟩
  · simp only [hw, hw1, Bool.false_eq_true, if_false] at hW
    simp only [hr, hr1, Bool.false_eq_true, if_false, if_true] at hR
    rcases h with ⟨h1, h0, hrd⟩ | ⟨_, _, h3⟩
    · left
      rw [hmu]
      exact ⟨h1, by omega, by simp only; omega⟩
    · rw [countP_zero_get _ _ i t h3 hi] at hr; exact absurd hr (by simp)

omit [DecidableEq K] [Inhabited V] in
theorem linOf_append_self (l : List (Nat × Op K V × Res V)) (i : Nat)
    (cm : Option (Op K V × Res V)) :
    ((l ++ cm.toList.map fun x => (i, x.1, x.2)).filter fun e => decide (e.1 = i)).map
        (fun e => e.2) =
      (l.filter fun e => decide (e.1 = i)).map (fun e => e.2) ++ cm.toList := by
  cases cm with
  | none => simp
  | some x => simp [List.filter_append]

omit [DecidableEq K] [Inhabited V] in
theorem linOf_append_other (l : List (Nat × Op K V × Res V)) (i j : Nat) (hne : j ≠ i)
    (cm : Option (Op K V × Res V)) :
    ((l ++ cm.toList.map fun x => (i, x.1, x.2)).filter fun e => decide (e.1 = j)).map
        (fun e => e.2) =
      (l.filter fun e => decide (e.1 = j)).map (fun e => e.2) := by
  have hne1 : i ≠ j := fun e => hne e.symm
  cases cm with
  | none => simp
  | some x => simp [List.filter_append, hne1]

/-- The invariant holds before any step. -/
theorem Config.Inv.init (m0 : MutexMap K V) (progs : List (List (Op K V))) :
    (Config.init m0 progs).Inv m0 progs := by
  refine ⟨?_, ?_, ?_⟩
  · left
    refine ⟨rfl, ?_, ?_⟩
    · rw [List.countP_eq_zero]
      intro t ht
      simp only [Config.init, List.mem_map] at ht
      obtain ⟨p, _, rfl⟩ := ht
      cases p with
      | nil => simp [Thread.holdsW, Thread.start]
      | cons op rest => cases op <;> simp [Thread.holdsW, Thread.start]
    · symm
      show List.countP Thread.holdsR (Config.init m0 progs).threads = 0
      rw [List.countP_eq_zero]
      intro t ht
      simp only [Config.init, List.mem_map] at ht
      obtain ⟨p, _, rfl⟩ := ht
      cases p with
      | nil => simp [Thread.holdsR, Thread.start]
      | cons op rest => cases op <;> simp [Thread.holdsR, Thread.start]
  · simp [Config.init, seqRun, LockedMap.table]
  · intro i t ht
    simp only [Config.init, List.getElem?_map, Option.map_eq_some'] at ht
    obtain ⟨p, hp, rfl⟩ := ht
    refine ⟨?_, ?_, ?_⟩
    · cases p with
      | nil => simp [Thread.localsOK, Thread.start]
      | cons op rest => cases op <;> simp [Thread.localsOK, Thread.start]
    · cases p with
      | nil => simp [Config.linOf, Config.init, Thread.history, Thread.pending, Thread.start]
      | cons op rest =>
        cases op <;> simp [Config.linOf, Config.init, Thread.history, Thread.pending, Thread.start]
    · simpa [Thread.start] using hp

/-- The invariant is kept by every step of every thread. -/
theorem Config.Inv.step (m0 : MutexMap K V) (progs : List (List (Op K V))) (c : Config K V)
    (hinv : c.Inv m0 progs) (i : Nat) : (c.step i).Inv m0 progs := by
  cases h : c.threads[i]? with
  | none => rw [Config.step_absent c i h]; exact hinv
  | some t =>
    cases hs : t.step c.s with
    | none => rw [Config.step_blocked c i t h hs]; exact hinv
    | some r =>
      obtain ⟨t1, s1, cm⟩ := r
      rw [Config.step_some c i t t1 s1 cm h hs]
      have facts := Thread.step_facts t c.s t1 s1 cm hs
      obtain ⟨hloc, hlin, hprog⟩ := hinv.thr i t h
      have hlt : i < c.threads.length := (List.getElem?_eq_some.mp h).1
      refine ⟨Config.lockInv_set c hinv.lock i t t1 s1 _ h facts.lock, ?_, ?_⟩
      · have hseq := hinv.seq
        cases cm with
        | none =>
          have hst := facts.quiet rfl
          simp only [Option.toList, List.map_nil, List.append_nil]
          rw [hseq]
          simp [LockedMap.table, hst]
        | some x =>
          obtain ⟨op, res⟩ := x
          have hc := facts.commit hloc op res rfl
          simp only [Option.toList, List.map_cons, List.map_nil, List.map_append]
          rw [seqRun_append, hseq]
          simp [seqRun, hc]
      · intro j tj hj
        by_cases hji : j = i
        · subst hji
          simp only [List.getElem?_set_self hlt, Option.some.injEq] at hj
          subst hj
          refine ⟨facts.locals, ?_, ?_⟩
          · simp only [Config.linOf] at hlin ⊢
            rw [linOf_append_self, hlin, facts.hist]
          · rw [facts.prog]; exact hprog
        · have hne : i ≠ j := fun e => hji e.symm
          simp only [List.getElem?_set_ne hne] at hj
          obtain ⟨hlocj, hlinj, hprogj⟩ := hinv.thr j tj hj
          refine ⟨?_, ?_, hprogj⟩
          · cases hw : t.holdsW with
            | false => exact Thread.localsOK_of_store_eq tj c.s s1 (facts.frame hw) hlocj
            | true =>
              apply Thread.localsOK_of_not_holdsW
              cases hwj : tj.holdsW with
              | false => rfl
              | true =>
                obtain ⟨_, hW, _⟩ := Config.lockInv_writer c hinv.lock i t h hw
                exact absurd (countP_one_unique _ _ i j t tj hW h hj hw hwj) hne
          · simp only [Config.linOf] at hlinj ⊢
            rw [linOf_append_other _ i j hji, hlinj]

/-- The invariant holds of every configuration an execution reaches. -/
theorem Config.Inv.exec (m0 : MutexMap K V) (progs : List (List (Op K V))) (sched : List Nat) :
    ∀ c : Config K V, c.Inv m0 progs → (c.exec sched).Inv m0 progs := by
  induction sched with
  | nil => intro c h; exact h
  | cons i sched ih =>
    intro c h
    exact ih (c.step i) (Config.Inv.step m0 progs c h i)

theorem Config.exec_append (c : Config K V) (a b : List Nat) :
    c.exec (a ++ b) = (c.exec a).exec b := by
  simp [Config.exec, List.foldl_append]

theorem Config.threads_length_step (c : Config K V) (i : Nat) :
    (c.step i).threads.length = c.threads.length := by
  cases h : c.threads[i]? with
  | none => rw [Config.step_absent c i h]
  | some t =>
    cases hs : t.step c.s with
    | none => rw [Config.step_blocked c i t h hs]
    | some r =>
      obtain ⟨t1, s1, cm⟩ := r
      rw [Config.step_some c i t t1 s1 cm h hs]
      simp

theorem Config.threads_length_exec (sched : List Nat) :
    ∀ c : Config K V, (c.exec sched).threads.length = c.threads.length := by
  induction sched with
  | nil => intro c; rfl
  | cons i sched ih =>
    intro c
    have : c.exec (i :: sched) = (c.step i).exec sched := rfl
    rw [this, ih, Config.threads_length_step]

/-- One thread alone, with the lock free, making one call by steps: the map it
leaves is the one the method with its lock calls leaves, and the call returns
and takes effect with the result of the atomic method. -/
theorem thread_alone (s : LockedMap K V) (op : Op K V) (h : s.mu = RWMutex.free) :
    Op.stepL s op =
        some (Config.exec
          { s := s, threads := [Thread.start [op]], lin := [] } [0, 0, 0, 0]).s ∧
      (Config.exec
          { s := s, threads := [Thread.start [op]], lin := [] } [0, 0, 0, 0]).lin =
        [(0, op, (Op.call s.table op).1)] ∧
      (Config.exec
          { s := s, threads := [Thread.start [op]], lin := [] } [0, 0, 0, 0]).threads.map (fun t => (t.calls, t.done)) =
        [([], [(op, (Op.call s.table op).1)])] := by
  rcases s with ⟨mu, store⟩
  simp only at h
  subst h
  have hr : ({ mu := RWMutex.free, store := store, trace := [] } : Run K V).mu = RWMutex.free :=
    rfl
  have hw : ({ mu := RWMutex.free, store := store, trace := [] } : Run K V).mu.writer = false :=
    rfl
  cases op with
  | store key val =>
    refine ⟨?_, ?_⟩
    · rw [Op.stepL, Op.runL, StoreL_free _ key val hr]
      simp [Config.exec, Config.step, Thread.start, Thread.step, RWMutex.Lock, RWMutex.Unlock,
        RWMutex.free, Thread.ret]
    · simp [Config.exec, Config.step, Thread.start, Thread.step, RWMutex.Lock, RWMutex.Unlock,
        RWMutex.free, Thread.ret, Op.call]
  | load key =>
    refine ⟨?_, ?_⟩
    · rw [Op.stepL, Op.runL, LoadL_unblocked _ key hw]
      simp [Config.exec, Config.step, Thread.start, Thread.step, RWMutex.RLock,
        RWMutex.RUnlock, RWMutex.free, Thread.ret]
    · simp [Config.exec, Config.step, Thread.start, Thread.step, RWMutex.RLock,
        RWMutex.RUnlock, RWMutex.free, Thread.ret, Op.call, Load, LockedMap.table]
  | delete key =>
    refine ⟨?_, ?_⟩
    · rw [Op.stepL, Op.runL, DeleteL_free _ key hr]
      simp [Config.exec, Config.step, Thread.start, Thread.step, RWMutex.Lock, RWMutex.Unlock,
        RWMutex.free, Thread.ret]
    · simp [Config.exec, Config.step, Thread.start, Thread.step, RWMutex.Lock, RWMutex.Unlock,
        RWMutex.free, Thread.ret, Op.call]
  | loadAndDelete key =>
    refine ⟨?_, ?_⟩
    · rw [Op.stepL, Op.runL, LoadAndDeleteL_free _ key hr]
      cases hl : (index store key).2 <;>
        simp [Config.exec, Config.step, Thread.start, Thread.step, RWMutex.Lock,
          RWMutex.Unlock, RWMutex.free, Thread.ret, hl]
    · cases hl : (index store key).2 <;>
        simp [Config.exec, Config.step, Thread.start, Thread.step, RWMutex.Lock,
          RWMutex.Unlock, RWMutex.free, Thread.ret, Op.call, LoadAndDelete, LockedMap.table, hl]
  | loadOrStore key val =>
    refine ⟨?_, ?_⟩
    · rw [Op.stepL, Op.runL, LoadOrStoreL_free _ key val hr]
      cases hl : (index store key).2 <;>
        simp [Config.exec, Config.step, Thread.start, Thread.step, RWMutex.Lock,
          RWMutex.Unlock, RWMutex.free, Thread.ret, hl]
    · cases hl : (index store key).2 <;>
        simp [Config.exec, Config.step, Thread.start, Thread.step, RWMutex.Lock,
          RWMutex.Unlock, RWMutex.free, Thread.ret, Op.call, LoadOrStore, LockedMap.table, hl]

end InterleavingLemmas

/-! ## Linearizability of the single-key methods -/

section InterleavingContracts

variable {K : Type u} {V : Type v} [DecidableEq K] [Inhabited V]

/-- C14: threads call the single-key methods concurrently, each call going by
steps (its lock calls and its statements on the table) that interleave in any
order with the steps of the others. For every schedule, in the configuration
`c` reached: the calls that have taken effect, run one after the other as
atomic methods in the order `c.lin` of taking effect, return the results the
threads got and leave the table of `c`; the calls of each thread that are in
that order are, in program order, its returned calls and the one in progress
if it has taken effect; that order only grows at its end as the execution goes
on, so that every call is in it from one of its own steps on, between its first
step and its return; and while a thread holds the lock exclusively, as it does
between the read and the delete of `LoadAndDelete` and between the check and
the store of `LoadOrStore`, no other thread takes a step. -/
theorem linearizable (m0 : MutexMap K V) (progs : List (List (Op K V))) (sched : List Nat)
    (c : Config K V) (hc : c = (Config.init m0 progs).exec sched) :
    seqRun m0 (c.lin.map fun e => e.2.1) = (c.lin.map fun e => e.2.2, c.s.table) ∧
      c.threads.length = progs.length ∧
      (∀ i t, c.threads[i]? = some t →
        c.linOf i = t.history ∧ progs[i]? = some (t.done.map Prod.fst ++ t.calls)) ∧
      (∀ sched2, ∃ more, ((Config.init m0 progs).exec (sched ++ sched2)).lin = c.lin ++ more) ∧
      (∀ t : Thread K V, t.midCall = true → t.holdsW = true) ∧
      (∀ i j ti tj, i ≠ j → c.threads[i]? = some ti → c.threads[j]? = some tj →
        tj.holdsW = true → c.step i = c) := by
  have hinv : c.Inv m0 progs := by
    rw [hc]
    exact Config.Inv.exec m0 progs sched _ (Config.Inv.init m0 progs)
  refine ⟨hinv.seq, ?_, ?_, ?_, Thread.holdsW_of_midCall, ?_⟩
  · rw [hc, Config.threads_length_exec]
    simp [Config.init]
  · intro i t ht
    exact ⟨(hinv.thr i t ht).2.1, (hinv.thr i t ht).2.2⟩
  · intro sched2
    rw [Config.exec_append, ← hc]
    exact Config.lin_exec sched2 c
  · intro i j ti tj hne hi hj hw
    exact Config.step_blocked c i ti hi (Config.blocked_of_holdsW c hinv.lock i j ti tj hne hi hj hw)

end InterleavingContracts

/-! ## The contracts at concrete inputs -/

theorem store_then_load_witness :
    (∀ op ∈ [Op.load "x", Op.loadOrStore "x" "3", Op.store "y" "9", Op.delete "y",
        Op.loadAndDelete "z"], op.leavesKey "x" = true) ∧
      (Load (Store (Store NewMutexMap "x" "1") "x" "2") "x").1 = ("2", true) ∧
      (Load (runOps (Store (Store NewMutexMap "x" "1") "x" "2")
        [Op.load "x", Op.loadOrStore "x" "3", Op.store "y" "9", Op.delete "y",
          Op.loadAndDelete "z"]) "x").1 = ("2", true) :=
  ⟨by decide, store_then_load (Store NewMutexMap "x" "1") "x" "2" _ (by decide)⟩

theorem load_never_stored_witness :
    (∀ op ∈ [Op.store "y" "1", Op.delete "x", Op.loadAndDelete "x", Op.load "x",
        Op.loadOrStore "z" "2"], op.neverStores "x" = true) ∧
      (Load (NewMutexMap : MutexMap String String) "x").1 = ("", false) ∧
      (Load (runOps (NewMutexMap : MutexMap String String)
        [Op.store "y" "1", Op.delete "x", Op.loadAndDelete "x", Op.load "x",
          Op.loadOrStore "z" "2"]) "x").1 = ("", false) :=
  ⟨by decide, load_never_stored "x" _ (by decide)⟩

theorem delete_then_load_witness :
    4 ∉ demoMap.store ∧ (Load (Delete demoMap 4) 4).1 = (0, false) ∧ Delete demoMap 4 = demoMap :=
  ⟨by decide, (delete_then_load demoMap 4).1, (delete_then_load demoMap 4).2 (by decide)⟩

theorem loadAndDelete_present_witness :
    demoMap.store.lookup 2 = some 20 ∧ (LoadAndDelete demoMap 2).1 = (20, true) ∧
      2 ∉ (LoadAndDelete demoMap 2).2.store ∧
      (Load (LoadAndDelete demoMap 2).2 2).1 = (0, false) :=
  ⟨by decide, loadAndDelete_present demoMap 2 20 (by decide)⟩

theorem loadAndDelete_absent_witness :
    4 ∉ demoMap.store ∧ LoadAndDelete demoMap 4 = ((0, false), demoMap) :=
  ⟨by decide, loadAndDelete_absent demoMap 4 (by decide)⟩

theorem loadOrStore_absent_witness :
    "a" ∉ (NewMutexMap : MutexMap String String).store ∧
      (LoadOrStore (NewMutexMap : MutexMap String String) "a" "1").1 = ("1", false) ∧
      (Load (LoadOrStore (NewMutexMap : MutexMap String String) "a" "1").2 "a").1 = ("1", true) :=
  ⟨by decide, loadOrStore_absent NewMutexMap "a" "1" (by decide)⟩

theorem loadOrStore_present_witness :
    (Store (NewMutexMap : MutexMap String String) "a" "1").store.lookup "a" = some "1" ∧
      (LoadOrStore (Store NewMutexMap "a" "1") "a" "2").1 = ("1", true) ∧
      (LoadOrStore (Store NewMutexMap "a" "1") "a" "2").2 = Store NewMutexMap "a" "1" ∧
      (Load (LoadOrStore (Store NewMutexMap "a" "1") "a" "2").2 "a").1 = ("1", true) :=
  ⟨by decide,
    (loadOrStore_present (Store NewMutexMap "a" "1") "a" "1" "2" (by decide)).1,
    (loadOrStore_present (Store NewMutexMap "a" "1") "a" "1" "2" (by decide)).2.1,
    (loadOrStore_present (Store NewMutexMap "a" "1") "a" "1" "2" (by decide)).2.2.1⟩

theorem range_stops_on_false_witness :
    (∀ k v s, (stopAtOnce k v s).1 = false) ∧ demoMap.store.keys ≠ [] ∧
      (Range IterOrder.reversed stopAtOnce ((), demoMap)).1.length = 1 :=
  ⟨fun _ _ _ => rfl, by decide,
    ((range_stops_on_false IterOrder.reversed stopAtOnce ((), demoMap)).2.2
      (fun _ _ _ => rfl)).1 (by decide)⟩

theorem range_skips_deleted_witness :
    snapshot IterOrder.asListed demoMap = [1] ++ 2 :: [3] ∧
      2 ∉ (rangeLoop deleteNext [1] ((), demoMap)).2.2.store ∧
      (∀ e ∈ (Range IterOrder.asListed deleteNext ((), demoMap)).1, e.1 ≠ 2) ∧
      Range IterOrder.asListed deleteNext ((), demoMap) =
        ((rangeLoop deleteNext [1] ((), demoMap)).1 ++
            (rangeLoop deleteNext [3] (rangeLoop deleteNext [1] ((), demoMap)).2).1,
          (rangeLoop deleteNext [3] (rangeLoop deleteNext [1] ((), demoMap)).2).2) :=
  ⟨by decide, by decide,
    range_skips_deleted IterOrder.asListed deleteNext ((), demoMap) [1] 2 [3]
      (by decide) (by decide) (by decide)⟩

theorem range_visits_snapshot_keys_witness :
    101 ∉ demoMap.store ∧
      101 ∈ (Range IterOrder.asListed storeFresh ((), demoMap)).2.2.store ∧
      ∀ e ∈ (Range IterOrder.asListed storeFresh ((), demoMap)).1, e.1 ≠ 101 :=
  ⟨by decide, by decide,
    (range_visits_snapshot_keys IterOrder.asListed storeFresh ((), demoMap)).2 101 (by decide)⟩

theorem range_passes_current_value_witness :
    snapshot IterOrder.asListed demoMap = [1] ++ 2 :: [3] ∧
      (Load demoMap 2).1 = (20, true) ∧
      (Load (rangeLoop overwriteNext [1] ((), demoMap)).2.2 2).1 = (99, true) ∧
      ∃ post, (Range IterOrder.asListed overwriteNext ((), demoMap)).1 =
        (rangeLoop overwriteNext [1] ((), demoMap)).1 ++
          (2, 99, (overwriteNext 2 99 (rangeLoop overwriteNext [1] ((), demoMap)).2).1) :: post :=
  ⟨by decide, by decide, by decide,
    (range_passes_current_value IterOrder.asListed overwriteNext ((), demoMap)).2 [1] 2 [3] 99
      (by decide) (by decide) (by decide)⟩

theorem store_distinct_keys_witness :
    ([(5, 50), (6, 60), (7, 70)].map Prod.fst).Nodup ∧
      [(7, 70), (5, 50), (6, 60)].Perm [(5, 50), (6, 60), (7, 70)] ∧
      (storeAll demoMap [(7, 70), (5, 50), (6, 60)]).store.entries.Perm
        (storeAll demoMap [(5, 50), (6, 60), (7, 70)]).store.entries ∧
      (∀ k, (Load (storeAll demoMap [(7, 70), (5, 50), (6, 60)]) k).1 =
        (Load (storeAll demoMap [(5, 50), (6, 60), (7, 70)]) k).1) ∧
      (∀ kv ∈ [(5, 50), (6, 60), (7, 70)],
        (Load (storeAll demoMap [(7, 70), (5, 50), (6, 60)]) kv.1).1 = (kv.2, true)) ∧
      (∀ k, k ∉ [(5, 50), (6, 60), (7, 70)].map Prod.fst →
        (Load (storeAll demoMap [(7, 70), (5, 50), (6, 60)]) k).1 = (Load demoMap k).1) :=
  ⟨by decide, by decide,
    store_distinct_keys demoMap [(5, 50), (6, 60), (7, 70)] [(7, 70), (5, 50), (6, 60)]
      (by decide) (by decide)⟩

theorem loadOrStore_same_key_witness :
    4 ∉ demoMap.store ∧
      (loadOrStoreAll demoMap 4 [41, 42, 43]).1 = [(41, false), (41, true), (41, true)] ∧
      ((loadOrStoreAll demoMap 4 [41, 42, 43]).1.filter fun r => !r.2).length = 1 ∧
      (loadOrStoreAll demoMap 4 [41, 42, 43]).2 = Store demoMap 4 41 ∧
      (Load (loadOrStoreAll demoMap 4 [41, 42, 43]).2 4).1 = (41, true) :=
  ⟨by decide, loadOrStore_same_key demoMap 4 41 [42, 43] (by decide)⟩

theorem frame_other_keys_witness :
    2 ≠ 3 ∧ (Load (Store demoMap 2 21) 3).1 = (Load demoMap 3).1 ∧
      (Load (Delete demoMap 2) 3).1 = (Load demoMap 3).1 ∧
      (Load (LoadAndDelete demoMap 2).2 3).1 = (Load demoMap 3).1 ∧
      (Load (LoadOrStore demoMap 2 21).2 3).1 = (Load demoMap 3).1 ∧
      (Load demoMap 2).2 = demoMap ∧ (Load (Load demoMap 2).2 2).1 = (Load demoMap 2).1 :=
  ⟨by decide, frame_other_keys demoMap 2 3 21 (by decide)⟩

theorem range_quiescent_witness :
    (∀ k v s, (sumValues k v s).1 = true ∧ (sumValues k v s).2.2 = s.2) ∧
      ((Range IterOrder.reversed sumValues (0, demoMap)).1.map fun e => e.1) =
        snapshot IterOrder.reversed demoMap ∧
      ((Range IterOrder.reversed sumValues (0, demoMap)).1.map
        fun e => (⟨e.1, e.2.1⟩ : Sigma fun _ : Nat => Nat)).Perm demoMap.store.entries ∧
      (Range IterOrder.reversed sumValues (0, demoMap)).2.2 = demoMap :=
  ⟨fun _ _ _ => ⟨rfl, rfl⟩,
    (range_quiescent IterOrder.reversed sumValues (0, demoMap) (fun _ _ _ => ⟨rfl, rfl⟩)).1,
    (range_quiescent IterOrder.reversed sumValues (0, demoMap)
      (fun _ _ _ => ⟨rfl, rfl⟩)).2.2.2.2.1,
    (range_quiescent IterOrder.reversed sumValues (0, demoMap)
      (fun _ _ _ => ⟨rfl, rfl⟩)).2.2.2.2.2⟩

theorem range_bounded_witness :
    (Range IterOrder.asListed storeFresh ((), demoMap)).2.2.store.entries.length = 6 ∧
      (Range IterOrder.asListed storeFresh ((), demoMap)).1.length ≤ 3 :=
  ⟨by decide, (range_bounded IterOrder.asListed storeFresh ((), demoMap)).2.2⟩

theorem lock_discipline_witness :
    demoRun.mu = RWMutex.free ∧
      (StoreL demoRun 2 21).map (fun r1 => r1.trace) =
        some [Ev.lock, Ev.write 2 21, Ev.unlock] ∧
      (LoadL demoRun 2).map (fun x => x.2.trace) = some [Ev.rlock, Ev.read 2, Ev.runlock] ∧
      (DeleteL demoRun 2).map (fun r1 => r1.trace) = some [Ev.lock, Ev.del 2, Ev.unlock] ∧
      (LoadAndDeleteL demoRun 2).map (fun x => x.2.trace) =
        some [Ev.lock, Ev.read 2, Ev.del 2, Ev.unlock] ∧
      (LoadOrStoreL demoRun 2 21).map (fun x => x.2.trace) =
        some [Ev.lock, Ev.read 2, Ev.unlock] := by
  have h := (@lock_discipline Nat Nat Unit _ _ demoRun 2 21).2.2 rfl
  exact ⟨rfl, h.1, h.2.1, h.2.2.1, h.2.2.2.1, h.2.2.2.2⟩

theorem range_visits_unlocked_witness :
    demoRun.mu = RWMutex.free ∧
      ∃ st1, RangeL IterOrder.asListed
          (reentrant fun key value (st : Unit) =>
            (true, st, [Op.load key, Op.store (key + 100) value]))
          ((), demoRun) = some st1 ∧
        st1.2.mu = RWMutex.free :=
  ⟨rfl, (range_visits_unlocked IterOrder.asListed loadAndStoreFresh ((), demoRun)).2.2.2 rfl _⟩

theorem linearizable_witness :
    (Config.exec (Config.init demoMap demoProgs) demoSched).lin =
        [(1, Op.loadOrStore 4 42, some (42, false)), (0, Op.loadOrStore 4 41, some (42, true)),
          (1, Op.load 4, some (42, true))] ∧
      seqRun demoMap [Op.loadOrStore 4 42, Op.loadOrStore 4 41, Op.load 4] =
        ([some (42, false), some (42, true), some (42, true)],
          (Config.exec (Config.init demoMap demoProgs) demoSched).s.table) ∧
      (Config.exec (Config.init demoMap demoProgs) (demoSched.take 4)).threads[1]? =
        some { calls := [Op.loadOrStore 4 42, Op.load 4], pc := 2, val := 0, ok := false,
               done := [] } ∧
      (Config.exec (Config.init demoMap demoProgs) (demoSched.take 4)).step 0 =
        Config.exec (Config.init demoMap demoProgs) (demoSched.take 4) :=
  ⟨by decide,
    (linearizable demoMap demoProgs demoSched _ rfl).1,
    by decide,
    (linearizable demoMap demoProgs (demoSched.take 4) _ rfl).2.2.2.2.2 0 1
      (Thread.start [Op.loadOrStore 4 41])
      { calls := [Op.loadOrStore 4 42, Op.load 4], pc := 2, val := 0, ok := false, done := [] }
      (by decide) (by decide) (by decide) (by decide)⟩

/-! ## The scenarios of the specification -/

/-- The third scenario: store, overwrite, delete. -/
theorem scenario_store_overwrite_delete :
    (Load (NewMutexMap : MutexMap String String) "x").1 = ("", false) ∧
      (Load (Store (NewMutexMap : MutexMap String String) "x" "1") "x").1 = ("1", true) ∧
      (Load (Store (Store (NewMutexMap : MutexMap String String) "x" "1") "x" "2") "x").1
        = ("2", true) ∧
      (Load (Delete (Store (Store (NewMutexMap : MutexMap String String) "x" "1") "x" "2") "x")
        "x").1 = ("", false) := by
  decide

/-- The loop over `demoMap` with a visitor that deletes the next key: key `2` is
skipped, key `3` is still visited. -/
theorem scenario_range_deleteNext :
    (Range IterOrder.asListed deleteNext ((), demoMap)).1 = [(1, 10, true), (3, 30, true)] := by
  decide

/-- The loop stops at the second invocation, in either order. -/
theorem scenario_range_stopAtSecond :
    (Range IterOrder.asListed stopAtSecond (0, demoMap)).1 = [(1, 10, true), (2, 20, false)] ∧
      (Range IterOrder.reversed stopAtSecond (0, demoMap)).1
        = [(3, 30, true), (2, 20, false)] := by
  decide

/-- The loop over `demoMap` with a visitor that overwrites the next key: keys `2`
and `3` are visited with the new value, not the one of the snapshot. -/
theorem scenario_range_overwriteNext :
    (Range IterOrder.asListed overwriteNext ((), demoMap)).1
      = [(1, 10, true), (2, 99, true), (3, 99, true)] := by
  decide

/-- The fourth scenario: `LoadOrStore` twice on the same key, then `Load`. -/
theorem scenario_loadOrStore_twice :
    (LoadOrStore (NewMutexMap : MutexMap String String) "a" "1").1 = ("1", false) ∧
      (LoadOrStore (LoadOrStore (NewMutexMap : MutexMap String String) "a" "1").2 "a" "2").1
        = ("1", true) ∧
      (Load (LoadOrStore (LoadOrStore (NewMutexMap : MutexMap String String) "a" "1").2
        "a" "2").2 "a").1 = ("1", true) := by
  decide

/-- A quiescent traversal in reversed order, and the running total it leaves. -/
theorem scenario_range_sumValues :
    (Range IterOrder.reversed sumValues (0, demoMap)).1
        = [(3, 30, true), (2, 20, true), (1, 10, true)] ∧
      (Range IterOrder.reversed sumValues (0, demoMap)).2.1 = 60 := by
  decide

/-- The trace of `Range` over `demoMap` with a visitor that calls `Load` and
`Store` on the same map: every visit is made with the lock free, and the
stored keys are in the table at the end. -/
theorem scenario_rangeL_reentrant :
    (RangeL IterOrder.asListed loadAndStoreFresh ((), demoRun)).map
        (fun st => (st.2.trace, st.2.mu, st.2.store.keys)) =
      some ([Ev.rlock, Ev.iter, Ev.runlock,
          Ev.rlock, Ev.read 1, Ev.runlock, Ev.visit 1 10 RWMutex.free,
          Ev.rlock, Ev.read 2, Ev.runlock, Ev.visit 2 20 RWMutex.free,
          Ev.rlock, Ev.read 3, Ev.runlock, Ev.visit 3 30 RWMutex.free],
        RWMutex.free, [103, 102, 101, 1, 2, 3]) := by
  decide

/-- A call of `Store` made while a shared hold of the lock exists does not
return, and neither does a call of `Load` made under an exclusive hold. -/
theorem scenario_blocked_calls :
    Op.stepL { mu := { writer := false, readers := 1 }, store := demoMap.store }
        (Op.store 1 11) = none ∧
      Op.stepL { mu := { writer := true, readers := 0 }, store := demoMap.store }
        (Op.load 1) = none := by
  decide

/-- Two threads race on `LoadOrStore(4, _)`: thread `1` stores; thread `0`, whose
`Lock` had to wait, observes the stored value; both return, in program order,
what the order of taking effect says. -/
theorem scenario_concurrent_loadOrStore :
    (Config.exec (Config.init demoMap demoProgs) demoSched).threads.map
        (fun t => (t.calls, t.done)) =
      [([], [(Op.loadOrStore 4 41, some (42, true))]),
        ([], [(Op.loadOrStore 4 42, some (42, false)), (Op.load 4, some (42, true))])] ∧
      (Config.exec (Config.init demoMap demoProgs) demoSched).s.mu = RWMutex.free := by
  decide

end MutexMapSpec
